import Mathlib

/-!
Verification of the k8s-e2e-log-combiner merge engine.

The Go program is shallowly embedded: lines are `List Char` (Go compares
strings byte-wise; for the characters appearing in sort keys this agrees
with code-point order, and `Char.toNat` order models byte order on valid
UTF-8), `time.Time` values are `GoTime` (the program only inspects hour,
minute, second, nanosecond and equality against the zero value, which
`time.Parse` can never return because it defaults the year to 0 while the
zero value has year 1), and the regular expressions - which are all
fixed-shape except for the two `+` quantifiers, each of which is followed
by a character outside its class, making greedy matching deterministic -
are embedded as lists of character-class elements matched at the leftmost
possible position, exactly as Go's `FindStringSubmatch` does.
-/

/-- Decimal digit test on the code point, as in the regexp class `\d`. -/
def isDig (c : Char) : Bool := 48 ≤ c.toNat && c.toNat ≤ 57

/-- Word character, as in the regexp class `\w` (`[0-9A-Za-z_]`). -/
def isWordChar (c : Char) : Bool :=
  isDig c || (65 ≤ c.toNat && c.toNat ≤ 90) || (97 ≤ c.toNat && c.toNat ≤ 122) || c = '_'

/-- Upper-case ASCII letter, as in the regexp class `[A-Z]`. -/
def isUpperAZ (c : Char) : Bool := 65 ≤ c.toNat && c.toNat ≤ 90

/-- Lower-case ASCII letter, as in the regexp class `[a-z]`. -/
def isLowerAZ (c : Char) : Bool := 97 ≤ c.toNat && c.toNat ≤ 122

/-- Numeric value of a digit character. -/
def digitVal (c : Char) : Nat := c.toNat - 48

/-- The digit character for a value below ten. -/
def digitChar (n : Nat) : Char :=
  match n with
  | 0 => '0' | 1 => '1' | 2 => '2' | 3 => '3' | 4 => '4'
  | 5 => '5' | 6 => '6' | 7 => '7' | 8 => '8' | 9 => '9'
  | _ => '*'

/-- Value of a most-significant-first digit string. -/
def natOfDigits : List Char → Nat
  | [] => 0
  | c :: cs => digitVal c * 10 ^ cs.length + natOfDigits cs

/-- Fuel-driven decimal printer (fuel keeps the recursion structural so
that concrete evaluation reduces in the kernel). -/
def natToDigitsAux : Nat → Nat → List Char
  | 0, _ => []
  | fuel + 1, n =>
    if n < 10 then [digitChar n] else natToDigitsAux fuel (n / 10) ++ [digitChar (n % 10)]

/-- Decimal representation of a natural number, as Go's `%d`. -/
def natToDigits (n : Nat) : List Char := natToDigitsAux (n + 1) n

/-- Zero-padded decimal of minimum width `w`, as Go's `%0wd`. -/
def padNum (w n : Nat) : List Char :=
  List.replicate (w - (natToDigits n).length) '0' ++ natToDigits n

/-- Byte-wise strict comparison of two lines, as Go's `<` on strings. -/
def listLt : List Char → List Char → Bool
  | [], [] => false
  | [], _ :: _ => true
  | _ :: _, [] => false
  | a :: as, b :: bs => if a = b then listLt as bs else decide (a.toNat < b.toNat)

/-- Byte-wise comparison of two lines, as Go's `<=` on strings. -/
def listLe : List Char → List Char → Bool
  | [], _ => true
  | _ :: _, [] => false
  | a :: as, b :: bs => if a = b then listLe as bs else decide (a.toNat < b.toNat)

/-- Lexicographic order on equal-length tuples of naturals, the intended
(day, hour, minute, second, nanoseconds, sourceIndex, rowNumber) order. -/
def natLexLt : List Nat → List Nat → Bool
  | [], [] => false
  | [], _ :: _ => true
  | _ :: _, [] => false
  | a :: as, b :: bs => if a = b then natLexLt as bs else decide (a < b)

/-! ## Regular-expression model -/

/-- One element of a pattern: a single character of a class, or a greedy
nonempty run of a class (`+`). The `+` elements in the embedded patterns
are each followed by a character outside their class, so greedy maximal
matching coincides with Go's leftmost-first semantics. -/
inductive RElem where
  | cls (p : Char → Bool)
  | plus (p : Char → Bool)

/-- A single digit element, `\d`. -/
def dig : RElem := RElem.cls isDig

/-- A literal character element. -/
def lit (c : Char) : RElem := RElem.cls (fun x => x = c)

/-- The unescaped regexp dot: any character except a newline. -/
def anyc : RElem := RElem.cls (fun c => c ≠ '\n')

/-- Match a pattern against a prefix of the input, returning the consumed
characters and the remainder. -/
def matchElems : List RElem → List Char → Option (List Char × List Char)
  | [], s => some ([], s)
  | RElem.cls p :: es, s =>
    match s with
    | [] => none
    | c :: cs =>
      if p c then (matchElems es cs).map (fun pr => (c :: pr.1, pr.2)) else none
  | RElem.plus p :: es, s =>
    let run := s.takeWhile p
    if run.length = 0 then none
    else (matchElems es (s.drop run.length)).map (fun pr => (run ++ pr.1, pr.2))

/-- Match `pre`, then the capture group `grp`, then `post` at the start of
the input, returning the group's text, as an anchored `FindStringSubmatch`. -/
def subAt (pre grp post : List RElem) (s : List Char) : Option (List Char) :=
  match matchElems pre s with
  | none => none
  | some (_, r1) =>
    match matchElems grp r1 with
    | none => none
    | some (g, r2) =>
      match matchElems post r2 with
      | none => none
      | some _ => some g

/-- Unanchored `FindStringSubmatch`: try each start position left to
right, returning the group text of the leftmost match. -/
def findSub (pre grp post : List RElem) : List Char → Option (List Char)
  | [] => subAt pre grp post []
  | c :: t =>
    match subAt pre grp post (c :: t) with
    | some g => some g
    | none => findSub pre grp post t

/-- The pattern `\d{2}:\d{2}:\d{2}`, the common core of every timestamp pattern. -/
def timeCore : List RElem := [dig, dig, lit ':', dig, dig, lit ':', dig, dig]

/-- The group of `timeNanoPattern`/`timeMicroPattern`/`timeMilliPattern`/
`timePattern` from the main program: time core plus a literal dot and `k`
fraction digits (`k = 0` meaning no fraction). -/
def timeShape (k : Nat) : List RElem :=
  timeCore ++ (if k = 0 then [] else lit '.' :: List.replicate k dig)

/-- The time group as written in `combiner.go`, where the dot separating
the fraction is an unescaped `.` matching any character. -/
def timeShapeAny (k : Nat) : List RElem :=
  timeCore ++ (if k = 0 then [] else anyc :: List.replicate k dig)

/-! ## Timestamps and `time.Parse` -/

/-- The observable part of a Go `time.Time` for this program: clock
fields, plus the year, which distinguishes the zero value (year 1) from
any `time.Parse` result (year 0) under Go's `==`. -/
structure GoTime where
  year : Int
  hour : Nat
  minute : Nat
  second : Nat
  nano : Nat
deriving DecidableEq

/-- Go's zero `time.Time{}` (January 1, year 1). -/
def emptyTime : GoTime := ⟨1, 0, 0, 0, 0⟩

/-- Parse two digit characters as in Go's `getnum` (error on non-digits). -/
def parse2 (c1 c2 : Char) : Except String Nat :=
  if isDig c1 && isDig c2 then Except.ok (10 * digitVal c1 + digitVal c2)
  else Except.error "bad digit"

/-- Model of `time.Parse` of a matched substring against layout `15:04:05` followed
by a `k`-digit fraction (`k = 0`: no fraction). Mirrors Go's shape checks,
digit checks and range checks; the fraction is scaled to nanoseconds. -/
def goParseTime (k : Nat) (m : List Char) : Except String GoTime :=
  match m with
  | c1 :: c2 :: ':' :: c3 :: c4 :: ':' :: c5 :: c6 :: rest =>
    match parse2 c1 c2 with
    | Except.error e => Except.error e
    | Except.ok hh =>
      match parse2 c3 c4 with
      | Except.error e => Except.error e
      | Except.ok mm =>
        match parse2 c5 c6 with
        | Except.error e => Except.error e
        | Except.ok ss =>
          match
            (match k, rest with
             | 0, [] => Except.ok 0
             | _, '.' :: frac =>
               if frac.length = k && decide (k ≠ 0) && frac.all isDig then
                 Except.ok (natOfDigits frac * 10 ^ (9 - k))
               else Except.error "bad fraction"
             | _, _ => (Except.error "bad fraction" : Except String Nat)) with
          | Except.error e => Except.error e
          | Except.ok nn =>
            if 24 ≤ hh then Except.error "hour out of range"
            else if 60 ≤ mm then Except.error "minute out of range"
            else if 60 ≤ ss then Except.error "second out of range"
            else Except.ok ⟨0, hh, mm, ss, nn⟩
  | _ => Except.error "cannot parse"

/-- The function `parseLineTime` from the main program: try the nano, micro, milli and
bare patterns in order anywhere in the line; parse the first match; return
the default value when nothing matches. -/
def parseLineTime (line : List Char) (defaultValue : GoTime) : Except String GoTime :=
  match findSub [] (timeShape 9) [] line with
  | some m => goParseTime 9 m
  | none =>
    match findSub [] (timeShape 6) [] line with
    | some m => goParseTime 6 m
    | none =>
      match findSub [] (timeShape 3) [] line with
      | some m => goParseTime 3 m
      | none =>
        match findSub [] (timeShape 0) [] line with
        | some m => goParseTime 0 m
        | none => Except.ok defaultValue

/-- Decidable equality for results, used to evaluate concrete runs. -/
instance {e a : Type} [DecidableEq e] [DecidableEq a] : DecidableEq (Except e a) := fun x y =>
  match x, y with
  | Except.ok u, Except.ok v =>
    if h : u = v then isTrue (by rw [h]) else isFalse (by intro hc; cases hc; exact h rfl)
  | Except.error u, Except.error v =>
    if h : u = v then isTrue (by rw [h]) else isFalse (by intro hc; cases hc; exact h rfl)
  | Except.ok _, Except.error _ => isFalse (by intro hc; cases hc)
  | Except.error _, Except.ok _ => isFalse (by intro hc; cases hc)

/-- Whether a result is a success. -/
def isOkE {e a : Type} : Except e a → Bool
  | Except.ok _ => true
  | Except.error _ => false

/-! ## The older extractor `getTimeKey` from `combiner.go` -/

/-- The anchored part `^\w\d{4} ` of `lineFormat1`/`lineFormat2`. -/
def lf12pre : List RElem := [RElem.cls isWordChar, dig, dig, dig, dig, lit ' ']

/-- The anchored part `^[A-Z][a-z]+ \d+ ` of `lineFormat3`/`lineFormat4`.
Both `+` runs are followed by a space, which neither class contains, so
greedy maximal matching is exact. -/
def lf34pre : List RElem :=
  [RElem.cls isUpperAZ, RElem.plus isLowerAZ, lit ' ', RElem.plus isDig, lit ' ']

/-- The anchored part `^time="\d{4}-\d{2}-\d{2}T` of `lineFormat5`. -/
def lf5pre : List RElem :=
  [lit 't', lit 'i', lit 'm', lit 'e', lit '=', lit '"',
   dig, dig, dig, dig, lit '-', dig, dig, lit '-', dig, dig, lit 'T']

/-- The function `getTimeKey` from `combiner.go`: five anchored patterns, then the
unanchored 6-digit, 3-digit and bare time patterns (the dots in these
patterns are unescaped, matching any character); every match is padded
with zeros to a 9-digit fraction; otherwise the default key is returned. -/
def getTimeKey (line defaultTimeKey : List Char) : List Char :=
  match subAt lf12pre (timeShapeAny 6) [] line with
  | some m => m ++ ['0', '0', '0']
  | none =>
  match subAt lf12pre (timeShapeAny 3) [] line with
  | some m => m ++ ['0', '0', '0', '0', '0', '0']
  | none =>
  match subAt lf34pre (timeShapeAny 6) [] line with
  | some m => m ++ ['0', '0', '0']
  | none =>
  match subAt lf34pre (timeShapeAny 3) [] line with
  | some m => m ++ ['0', '0', '0', '0', '0', '0']
  | none =>
  match subAt lf5pre (timeShapeAny 9) [lit 'Z'] line with
  | some m => m
  | none =>
  match findSub [] (timeShapeAny 6) [] line with
  | some m => m ++ ['0', '0', '0']
  | none =>
  match findSub [] (timeShapeAny 3) [] line with
  | some m => m ++ ['0', '0', '0', '0', '0', '0']
  | none =>
  match findSub [] (timeShapeAny 0) [] line with
  | some m => m ++ ['0', '0', '0', '0', '0', '0', '0', '0', '0']
  | none => defaultTimeKey

/-! ## The extractor order claimed by the specification -/

/-- Total decode of a matched time substring to nanosecond resolution,
used only by the spec-order extractor below. -/
def specDecode (k : Nat) (m : List Char) : GoTime :=
  match m with
  | c1 :: c2 :: _ :: c3 :: c4 :: _ :: c5 :: c6 :: rest =>
    ⟨0, 10 * digitVal c1 + digitVal c2, 10 * digitVal c3 + digitVal c4,
      10 * digitVal c5 + digitVal c6,
      (match rest with
       | [] => 0
       | _ :: frac => natOfDigits frac * 10 ^ (9 - k))⟩
  | _ => emptyTime

/-- A letter, for the spec's "single letter" leading shape. -/
def isLetter : RElem := RElem.cls (fun c => isUpperAZ c || isLowerAZ c)

/-- Modelled from the spec, section 4.1 (for comparison with the code):
the nine patterns in the order the spec lists them - five anchored at the
line start (letter plus 4 digits with 6- then 3-digit fraction, month name
and day with 6- then 3-digit fraction, the `time="..."` structured field
with 9-digit fraction), then four anywhere in the line (9-, 6-, 3-digit
fraction, then bare), returning the result of the first that matches, and
the fallback when none does. -/
def specOrderExtract (line : List Char) (fallback : GoTime) : GoTime :=
  match subAt [isLetter, dig, dig, dig, dig, lit ' '] (timeShape 6) [] line with
  | some m => specDecode 6 m
  | none =>
  match subAt [isLetter, dig, dig, dig, dig, lit ' '] (timeShape 3) [] line with
  | some m => specDecode 3 m
  | none =>
  match subAt lf34pre (timeShape 6) [] line with
  | some m => specDecode 6 m
  | none =>
  match subAt lf34pre (timeShape 3) [] line with
  | some m => specDecode 3 m
  | none =>
  match subAt lf5pre (timeShape 9) [lit 'Z'] line with
  | some m => specDecode 9 m
  | none =>
  match findSub [] (timeShape 9) [] line with
  | some m => specDecode 9 m
  | none =>
  match findSub [] (timeShape 6) [] line with
  | some m => specDecode 6 m
  | none =>
  match findSub [] (timeShape 3) [] line with
  | some m => specDecode 3 m
  | none =>
  match findSub [] (timeShape 0) [] line with
  | some m => specDecode 0 m
  | none => fallback

/-! ## Line tagging and per-source processing -/

/-- The sort key `fmt.Sprintf("%d:%02d:%02d:%02d.%09d:%04d:%08d", ...)`. -/
def sortKey (day h m s n i row : Nat) : List Char :=
  natToDigits day ++ ':' ::
    (padNum 2 h ++ ':' ::
      (padNum 2 m ++ ':' ::
        (padNum 2 s ++ '.' ::
          (padNum 9 n ++ ':' ::
            (padNum 4 i ++ ':' :: padNum 8 row)))))

/-- The display time `fmt.Sprintf("%02d:%02d:%02d.%09d", ...)`. -/
def displayTime (h m s n : Nat) : List Char :=
  padNum 2 h ++ ':' :: (padNum 2 m ++ ':' :: (padNum 2 s ++ '.' :: padNum 9 n))

/-- Go's `%-62s`: left-justify to width 62 (never truncates). -/
def padRight (s : List Char) (w : Nat) : List Char :=
  s ++ List.replicate (w - s.length) ' '

/-- The full tagged line
`sortKey + " " + displayTime + " " + %-62s("[" + tag + "]") + " " + raw`. -/
def mkTagged (day h m s n i row : Nat) (tag raw : List Char) : List Char :=
  sortKey day h m s n i row ++ ' ' ::
    (displayTime h m s n ++ ' ' :: (padRight ('[' :: tag ++ [']']) 62 ++ ' ' :: raw))

/-- The function `shortName`: names over 60 characters keep a 17-character head and a
40-character tail joined by an ellipsis. -/
def shortName (name : List Char) : List Char :=
  if 60 < name.length then
    name.take 17 ++ ('.' :: '.' :: '.' :: name.drop (name.length - 40))
  else name

/-- Model of `strings.HasPrefix`: does `s` start with `p`? -/
def hasLead : List Char → List Char → Bool
  | _, [] => true
  | [], _ :: _ => false
  | c :: cs, p :: ps => c = p && hasLead cs ps

/-- Model of `strings.TrimPrefix`. -/
def trimPref (s p : List Char) : List Char :=
  if hasLead s p then s.drop p.length else s

/-- One logical input: its name, whether opening its stream fails, whether
its scan fails (stream error or over-long line; the lines read before the
failure are `lines`), and its line contents. -/
structure Source where
  name : List Char
  openFails : Bool
  scanFails : Bool
  lines : List (List Char)
deriving DecidableEq

/-- The rolling per-source worker state of the main loop. -/
structure WState where
  lineTime : GoTime
  firstTime : GoTime
  dayNumber : Nat
  rowNumber : Nat
  tagged : List (List Char)
deriving DecidableEq

/-- The worker state before any line is read. -/
def initWState : WState := ⟨emptyTime, emptyTime, 0, 0, []⟩

/-- One iteration of the scan loop: extract the time with the previous
time as fallback (an extraction error is sent to the error channel and
kills the run), set `firstTime` if still the zero value, flip `dayNumber`
to 1 when this hour is more than one hour before `firstTime`'s hour,
append the tagged line. -/
def stepLine (i : Nat) (short : List Char) (st : WState) (line : List Char) :
    Except String WState :=
  match parseLineTime line st.lineTime with
  | Except.error e => Except.error e
  | Except.ok t =>
    let ft := if st.firstTime = emptyTime then t else st.firstTime
    let day := if t.hour + 1 < ft.hour then 1 else st.dayNumber
    let row := st.rowNumber + 1
    Except.ok ⟨t, ft, day, row,
      st.tagged ++ [mkTagged day t.hour t.minute t.second t.nano i row short line]⟩

/-- Run the scan loop over the lines of one source. -/
def runLines (i : Nat) (short : List Char) (st : WState) :
    List (List Char) → Except String WState
  | [] => Except.ok st
  | l :: ls =>
    match stepLine i short st l with
    | Except.error e => Except.error e
    | Except.ok st2 => runLines i short st2 ls

/-- One worker: fail on an open failure, scan all lines (an extraction
error aborts), then fail on a scan failure, else return the batch. -/
def processSource (pfx : List Char) (i : Nat) (src : Source) :
    Except String (List (List Char)) :=
  if src.openFails then Except.error "failed to create new reader"
  else
    match runLines i (shortName (trimPref src.name pfx)) initWState src.lines with
    | Except.error e => Except.error e
    | Except.ok st => if src.scanFails then Except.error "scan error" else Except.ok st.tagged

/-- Run every worker in discovery order, collecting the batches; any
worker failure fails the whole run (the Go collector receives on the error
channel and exits before writing any output). -/
def runAll (pfx : List Char) (i : Nat) : List Source → Except String (List (List (List Char)))
  | [] => Except.ok []
  | s :: ss =>
    match processSource pfx i s with
    | Except.error e => Except.error e
    | Except.ok b =>
      match runAll pfx (i + 1) ss with
      | Except.error e => Except.error e
      | Except.ok bs => Except.ok (b :: bs)

/-- The byte-wise line order used by `sort.Strings`. -/
def lineOrd (a b : List Char) : Prop := listLe a b = true

instance : DecidableRel lineOrd := fun a b => inferInstanceAs (Decidable (listLe a b = true))

/-- Concatenate the collected batches, sort, and strip the first 35
characters (the 34-character sort key and the following space) from each
line. `sort.Strings` produces the unique `listLe`-sorted permutation, so
any sorting algorithm models it; insertion sort is used here. -/
def combineFrom (bs : List (List (List Char))) : List (List Char) :=
  (List.insertionSort lineOrd bs.flatten).map (fun l => l.drop 35)

/-- The whole run: process every source, then merge. -/
def combine (pfx : List Char) (sources : List Source) :
    Except String (List (List Char)) :=
  match runAll pfx 0 sources with
  | Except.error e => Except.error e
  | Except.ok bs => Except.ok (combineFrom bs)

/-! ## Digit and decimal-string lemmas -/

theorem charToNat_inj {a b : Char} (h : a.toNat = b.toNat) : a = b := by
  apply Char.eq_of_val_eq
  cases ha : a.val; cases hb : b.val
  simp_all [Char.toNat, UInt32.toNat]
  congr 1
  exact BitVec.eq_of_toNat_eq h

theorem isDig_bounds {c : Char} (h : isDig c = true) : 48 ≤ c.toNat ∧ c.toNat ≤ 57 := by
  simp [isDig] at h; exact h

theorem digitVal_le_nine {c : Char} (h : isDig c = true) : digitVal c ≤ 9 := by
  have := isDig_bounds h
  simp [digitVal]; omega

theorem digitVal_inj {a b : Char} (ha : isDig a = true) (hb : isDig b = true)
    (h : digitVal a = digitVal b) : a = b := by
  have h1 := isDig_bounds ha
  have h2 := isDig_bounds hb
  apply charToNat_inj
  simp [digitVal] at h
  omega

theorem digitVal_lt_iff {a b : Char} (ha : isDig a = true) (hb : isDig b = true) :
    (a.toNat < b.toNat) ↔ (digitVal a < digitVal b) := by
  have h1 := isDig_bounds ha
  have h2 := isDig_bounds hb
  simp [digitVal]
  omega

theorem digitChar_isDig {n : Nat} (h : n < 10) : isDig (digitChar n) = true := by
  interval_cases n <;> rfl

theorem digitVal_digitChar {n : Nat} (h : n < 10) : digitVal (digitChar n) = n := by
  interval_cases n <;> rfl

theorem natOfDigits_append (a b : List Char) :
    natOfDigits (a ++ b) = natOfDigits a * 10 ^ b.length + natOfDigits b := by
  induction a with
  | nil => simp [natOfDigits]
  | cons c cs ih =>
    simp only [List.cons_append, natOfDigits, ih, List.append_eq, List.length_append, pow_add]
    ring

theorem natOfDigits_lt (l : List Char) (h : ∀ c ∈ l, isDig c = true) :
    natOfDigits l < 10 ^ l.length := by
  induction l with
  | nil => simp [natOfDigits]
  | cons c cs ih =>
    have hd : digitVal c ≤ 9 := digitVal_le_nine (h c (by simp))
    have hv : natOfDigits cs < 10 ^ cs.length := ih (fun x hx => h x (by simp [hx]))
    simp only [natOfDigits, List.length_cons, pow_succ]
    calc digitVal c * 10 ^ cs.length + natOfDigits cs
        < digitVal c * 10 ^ cs.length + 10 ^ cs.length := by omega
      _ = (digitVal c + 1) * 10 ^ cs.length := by ring
      _ ≤ 10 * 10 ^ cs.length := Nat.mul_le_mul_right _ (by omega)
      _ = 10 ^ cs.length * 10 := by ring

theorem natOfDigits_replicate_zero (k : Nat) :
    natOfDigits (List.replicate k '0') = 0 := by
  induction k with
  | zero => rfl
  | succ n ih => simp [List.replicate, natOfDigits, ih]; rfl

theorem natToDigitsAux_spec :
    ∀ fuel n, n < fuel →
      natToDigitsAux fuel n ≠ [] ∧ (∀ c ∈ natToDigitsAux fuel n, isDig c = true) ∧
        natOfDigits (natToDigitsAux fuel n) = n := by
  intro fuel
  induction fuel with
  | zero => intro n h; omega
  | succ f ih =>
    intro n h
    by_cases h10 : n < 10
    · simp only [natToDigitsAux, if_pos h10]
      refine ⟨by simp, ?_, ?_⟩
      · intro c hc
        simp at hc
        subst hc
        exact digitChar_isDig h10
      · simp [natOfDigits, digitVal_digitChar h10]
    · have hdiv : n / 10 < f := by omega
      obtain ⟨hne, hdigs, hval⟩ := ih (n / 10) hdiv
      simp only [natToDigitsAux, if_neg h10]
      refine ⟨by simp, ?_, ?_⟩
      · intro c hc
        rcases List.mem_append.mp hc with hc | hc
        · exact hdigs c hc
        · simp at hc
          subst hc
          exact digitChar_isDig (by omega)
      · rw [natOfDigits_append, hval]
        simp [natOfDigits, digitVal_digitChar (show n % 10 < 10 by omega)]
        omega

theorem natToDigits_digits (n : Nat) : ∀ c ∈ natToDigits n, isDig c = true :=
  (natToDigitsAux_spec (n + 1) n (by omega)).2.1

theorem natToDigits_val (n : Nat) : natOfDigits (natToDigits n) = n :=
  (natToDigitsAux_spec (n + 1) n (by omega)).2.2

theorem natToDigits_ne_nil (n : Nat) : natToDigits n ≠ [] :=
  (natToDigitsAux_spec (n + 1) n (by omega)).1

theorem natToDigitsAux_len_le :
    ∀ fuel n w, n < fuel → n < 10 ^ w → 1 ≤ w → (natToDigitsAux fuel n).length ≤ w := by
  intro fuel
  induction fuel with
  | zero => intro n w h; omega
  | succ f ih =>
    intro n w h hw h1
    by_cases h10 : n < 10
    · simp [natToDigitsAux, if_pos h10]
      omega
    · have hw2 : 2 ≤ w := by
        by_contra hc
        have : w = 1 := by omega
        subst this
        simp at hw
        omega
      have hdivlt : n / 10 < 10 ^ (w - 1) := by
        rw [Nat.div_lt_iff_lt_mul (by omega)]
        have : 10 ^ (w - 1) * 10 = 10 ^ w := by
          rw [← pow_succ]
          congr 1
          omega
        omega
      have := ih (n / 10) (w - 1) (by omega) hdivlt (by omega)
      simp only [natToDigitsAux, if_neg h10, List.length_append, List.length_cons,
        List.length_nil]
      omega

theorem natToDigits_len_le {n w : Nat} (h : n < 10 ^ w) (hw : 1 ≤ w) :
    (natToDigits n).length ≤ w :=
  natToDigitsAux_len_le (n + 1) n w (by omega) h hw

theorem natToDigits_small {n : Nat} (h : n < 10) : natToDigits n = [digitChar n] := by
  simp [natToDigits, natToDigitsAux, h]

theorem padNum_digits (w n : Nat) : ∀ c ∈ padNum w n, isDig c = true := by
  intro c hc
  rcases List.mem_append.mp hc with hc | hc
  · rw [List.eq_of_mem_replicate hc]; rfl
  · exact natToDigits_digits n c hc

theorem padNum_len {w n : Nat} (h : n < 10 ^ w) (hw : 1 ≤ w) : (padNum w n).length = w := by
  have := natToDigits_len_le h hw
  simp [padNum]
  omega

theorem padNum_val (w n : Nat) : natOfDigits (padNum w n) = n := by
  simp [padNum, natOfDigits_append, natOfDigits_replicate_zero, natToDigits_val]

theorem padNum_inj {w na nb : Nat} (h : padNum w na = padNum w nb) : na = nb := by
  have := congrArg natOfDigits h
  simpa [padNum_val] using this

/-! ## Byte-wise order lemmas -/

theorem listLt_digits :
    ∀ x y : List Char, x.length = y.length → (∀ c ∈ x, isDig c = true) →
      (∀ c ∈ y, isDig c = true) →
      listLt x y = decide (natOfDigits x < natOfDigits y) := by
  intro x
  induction x with
  | nil =>
    intro y hlen _ _
    cases y with
    | nil => simp [listLt, natOfDigits]
    | cons d ds => simp at hlen
  | cons c cs ih =>
    intro y hlen hx hy
    cases y with
    | nil => simp at hlen
    | cons d ds =>
      have hcd : isDig c = true := hx c (by simp)
      have hdd : isDig d = true := hy d (by simp)
      have hlen2 : cs.length = ds.length := by simpa using hlen
      have hvcs : natOfDigits cs < 10 ^ cs.length :=
        natOfDigits_lt cs (fun a ha => hx a (by simp [ha]))
      have hvds : natOfDigits ds < 10 ^ ds.length :=
        natOfDigits_lt ds (fun a ha => hy a (by simp [ha]))
      by_cases hceq : c = d
      · subst hceq
        have hstep : listLt (c :: cs) (c :: ds) = listLt cs ds := by simp [listLt]
        rw [hstep]
        rw [ih ds hlen2 (fun a ha => hx a (by simp [ha])) (fun a ha => hy a (by simp [ha]))]
        rw [decide_eq_decide]
        simp only [natOfDigits, hlen2]
        omega
      · simp only [listLt, if_neg hceq]
        rw [decide_eq_decide]
        rw [digitVal_lt_iff hcd hdd]
        simp only [natOfDigits, hlen2]
        have hne : digitVal c ≠ digitVal d := fun h => hceq (digitVal_inj hcd hdd h)
        constructor
        · intro hlt
          calc digitVal c * 10 ^ ds.length + natOfDigits cs
              < digitVal c * 10 ^ ds.length + 10 ^ ds.length := by
                rw [hlen2] at hvcs; omega
            _ = (digitVal c + 1) * 10 ^ ds.length := by ring
            _ ≤ digitVal d * 10 ^ ds.length := Nat.mul_le_mul_right _ (by omega)
            _ ≤ digitVal d * 10 ^ ds.length + natOfDigits ds := by omega
        · intro hlt
          by_contra hge
          have hgt : digitVal d < digitVal c := by omega
          have : digitVal d * 10 ^ ds.length + natOfDigits ds
              < digitVal c * 10 ^ ds.length + natOfDigits cs := by
            calc digitVal d * 10 ^ ds.length + natOfDigits ds
                < digitVal d * 10 ^ ds.length + 10 ^ ds.length := by omega
              _ = (digitVal d + 1) * 10 ^ ds.length := by ring
              _ ≤ digitVal c * 10 ^ ds.length := Nat.mul_le_mul_right _ (by omega)
              _ ≤ digitVal c * 10 ^ ds.length + natOfDigits cs := by omega
          omega

theorem listLt_append_congr :
    ∀ a b c d : List Char, a.length = b.length →
      listLt (a ++ c) (b ++ d) = (if a = b then listLt c d else listLt a b) := by
  intro a
  induction a with
  | nil =>
    intro b c d hlen
    cases b with
    | nil => simp
    | cons y ys => simp at hlen
  | cons x xs ih =>
    intro b c d hlen
    cases b with
    | nil => simp at hlen
    | cons y ys =>
      have hlen2 : xs.length = ys.length := by simpa using hlen
      by_cases hxy : x = y
      · subst hxy
        have hstep : listLt ((x :: xs) ++ c) ((x :: ys) ++ d) = listLt (xs ++ c) (ys ++ d) := by
          simp [listLt]
        rw [hstep, ih ys c d hlen2]
        by_cases hxs : xs = ys
        · subst hxs; simp [listLt]
        · have hne : (x :: xs ≠ x :: ys) := by simp [hxs]
          rw [if_neg hxs, if_neg hne]
          have hstep2 : listLt (x :: xs) (x :: ys) = listLt xs ys := by simp [listLt]
          rw [hstep2]
      · have : (x :: xs ≠ y :: ys) := by simp [hxy]
        simp only [List.cons_append, listLt, if_neg hxy, if_neg this]

theorem listLt_block {w na nb : Nat} (ha : na < 10 ^ w) (hb : nb < 10 ^ w) (hw : 1 ≤ w)
    (sep : Char) (r1 r2 : List Char) :
    listLt (padNum w na ++ sep :: r1) (padNum w nb ++ sep :: r2)
      = (if na = nb then listLt r1 r2 else decide (na < nb)) := by
  rw [listLt_append_congr _ _ _ _ (by rw [padNum_len ha hw, padNum_len hb hw])]
  by_cases h : na = nb
  · subst h
    simp [listLt]
  · have hpne : padNum w na ≠ padNum w nb := fun hq => h (padNum_inj hq)
    rw [if_neg hpne, if_neg h]
    rw [listLt_digits _ _ (by rw [padNum_len ha hw, padNum_len hb hw])
      (padNum_digits w na) (padNum_digits w nb)]
    simp [padNum_val]

theorem listLt_last_block {w na nb : Nat} (ha : na < 10 ^ w) (hb : nb < 10 ^ w) (hw : 1 ≤ w) :
    listLt (padNum w na) (padNum w nb) = decide (na < nb) := by
  rw [listLt_digits _ _ (by rw [padNum_len ha hw, padNum_len hb hw])
    (padNum_digits w na) (padNum_digits w nb)]
  simp [padNum_val]

theorem eq_block {w na nb : Nat} (ha : na < 10 ^ w) (hb : nb < 10 ^ w) (hw : 1 ≤ w)
    (sep : Char) (r1 r2 : List Char) :
    (padNum w na ++ sep :: r1 = padNum w nb ++ sep :: r2) ↔ (na = nb ∧ r1 = r2) := by
  constructor
  · intro h
    obtain ⟨h1, h2⟩ := List.append_inj h (by rw [padNum_len ha hw, padNum_len hb hw])
    exact ⟨padNum_inj h1, by simpa using h2⟩
  · rintro ⟨h1, h2⟩
    subst h1; subst h2; rfl

theorem listLe_total : ∀ a b : List Char, listLe a b = true ∨ listLe b a = true := by
  intro a
  induction a with
  | nil => intro b; left; simp [listLe]
  | cons x xs ih =>
    intro b
    cases b with
    | nil => right; simp [listLe]
    | cons y ys =>
      by_cases hxy : x = y
      · subst hxy
        rcases ih ys with h | h
        · left; simpa [listLe] using h
        · right; simpa [listLe] using h
      · have hne : x.toNat ≠ y.toNat := fun h => hxy (charToNat_inj h)
        by_cases hlt : x.toNat < y.toNat
        · left; simp [listLe, hxy, hlt]
        · right
          have hyx : y ≠ x := fun h => hxy h.symm
          simp [listLe, hyx]
          omega

theorem listLe_antisymm : ∀ a b : List Char,
    listLe a b = true → listLe b a = true → a = b := by
  intro a
  induction a with
  | nil =>
    intro b _ hba
    cases b with
    | nil => rfl
    | cons y ys => simp [listLe] at hba
  | cons x xs ih =>
    intro b hab hba
    cases b with
    | nil => simp [listLe] at hab
    | cons y ys =>
      by_cases hxy : x = y
      · subst hxy
        have h1 : listLe xs ys = true := by simpa [listLe] using hab
        have h2 : listLe ys xs = true := by simpa [listLe] using hba
        rw [ih ys h1 h2]
      · have hyx : y ≠ x := fun h => hxy h.symm
        have h1 : x.toNat < y.toNat := by simpa [listLe, hxy] using hab
        have h2 : y.toNat < x.toNat := by simpa [listLe, hyx] using hba
        omega

theorem listLe_trans : ∀ a b c : List Char,
    listLe a b = true → listLe b c = true → listLe a c = true := by
  intro a
  induction a with
  | nil => intro b c _ _; simp [listLe]
  | cons x xs ih =>
    intro b c hab hbc
    cases b with
    | nil => simp [listLe] at hab
    | cons y ys =>
      cases c with
      | nil => simp [listLe] at hbc
      | cons z zs =>
        by_cases hxy : x = y
        · subst hxy
          have h1 : listLe xs ys = true := by simpa [listLe] using hab
          by_cases hyz : x = z
          · subst hyz
            have h2 : listLe ys zs = true := by simpa [listLe] using hbc
            simpa [listLe] using ih ys zs h1 h2
          · have h2 : x.toNat < z.toNat := by simpa [listLe, hyz] using hbc
            simp [listLe, hyz, h2]
        · have h1 : x.toNat < y.toNat := by simpa [listLe, hxy] using hab
          by_cases hyz : y = z
          · subst hyz
            have hxz : x ≠ y := hxy
            simp [listLe, hxz]
            omega
          · have h2 : y.toNat < z.toNat := by simpa [listLe, hyz] using hbc
            have hxz : x ≠ z := by
              intro h
              subst h
              omega
            simp [listLe, hxz]
            omega

instance : IsTotal (List Char) lineOrd :=
  ⟨fun a b => listLe_total a b⟩

instance : IsTrans (List Char) lineOrd :=
  ⟨fun a b c => listLe_trans a b c⟩

instance : IsAntisymm (List Char) lineOrd :=
  ⟨fun a b => listLe_antisymm a b⟩

/-- Sorting any two permutations of the same batch multiset gives the same
list: the result of `sort.Strings` does not depend on collection order. -/
theorem insertionSort_perm_eq {l1 l2 : List (List Char)} (h : l1.Perm l2) :
    List.insertionSort lineOrd l1 = List.insertionSort lineOrd l2 :=
  List.eq_of_perm_of_sorted
    (((List.perm_insertionSort lineOrd l1).trans h).trans
      (List.perm_insertionSort lineOrd l2).symm)
    (List.sorted_insertionSort lineOrd l1)
    (List.sorted_insertionSort lineOrd l2)

/-! ## Sort-key structure lemmas -/

theorem padNum_one {d : Nat} (h : d < 10) : padNum 1 d = natToDigits d := by
  simp [padNum, natToDigits_small h]

theorem padNum_eq_iff {w na nb : Nat} : padNum w na = padNum w nb ↔ na = nb :=
  ⟨padNum_inj, fun h => by rw [h]⟩

theorem ten_two : (10 : Nat) ^ 2 = 100 := by norm_num

theorem sortKey_lt_eq
    {d1 h1 m1 s1 n1 i1 r1 d2 h2 m2 s2 n2 i2 r2 : Nat}
    (hd1 : d1 < 10) (hh1 : h1 < 100) (hm1 : m1 < 100) (hs1 : s1 < 100)
    (hn1 : n1 < 10 ^ 9) (hi1 : i1 < 10 ^ 4) (hr1 : r1 < 10 ^ 8)
    (hd2 : d2 < 10) (hh2 : h2 < 100) (hm2 : m2 < 100) (hs2 : s2 < 100)
    (hn2 : n2 < 10 ^ 9) (hi2 : i2 < 10 ^ 4) (hr2 : r2 < 10 ^ 8) :
    listLt (sortKey d1 h1 m1 s1 n1 i1 r1) (sortKey d2 h2 m2 s2 n2 i2 r2)
      = natLexLt [d1, h1, m1, s1, n1, i1, r1] [d2, h2, m2, s2, n2, i2, r2] := by
  have hh1p : h1 < 10 ^ 2 := by rw [ten_two]; exact hh1
  have hh2p : h2 < 10 ^ 2 := by rw [ten_two]; exact hh2
  have hm1p : m1 < 10 ^ 2 := by rw [ten_two]; exact hm1
  have hm2p : m2 < 10 ^ 2 := by rw [ten_two]; exact hm2
  have hs1p : s1 < 10 ^ 2 := by rw [ten_two]; exact hs1
  have hs2p : s2 < 10 ^ 2 := by rw [ten_two]; exact hs2
  have hd1p : d1 < 10 ^ 1 := by simpa using hd1
  have hd2p : d2 < 10 ^ 1 := by simpa using hd2
  simp only [sortKey]
  rw [← padNum_one hd1, ← padNum_one hd2]
  rw [listLt_block hd1p hd2p (by norm_num)]
  simp only [natLexLt]
  by_cases hD : d1 = d2
  · subst hD
    rw [if_pos rfl, if_pos rfl]
    rw [listLt_block hh1p hh2p (by norm_num)]
    by_cases hH : h1 = h2
    · subst hH
      rw [if_pos rfl, if_pos rfl]
      rw [listLt_block hm1p hm2p (by norm_num)]
      by_cases hM : m1 = m2
      · subst hM
        rw [if_pos rfl, if_pos rfl]
        rw [listLt_block hs1p hs2p (by norm_num)]
        by_cases hS : s1 = s2
        · subst hS
          rw [if_pos rfl, if_pos rfl]
          rw [listLt_block hn1 hn2 (by norm_num)]
          by_cases hN : n1 = n2
          · subst hN
            rw [if_pos rfl, if_pos rfl]
            rw [listLt_block hi1 hi2 (by norm_num)]
            by_cases hI : i1 = i2
            · subst hI
              rw [if_pos rfl, if_pos rfl]
              rw [listLt_last_block hr1 hr2 (by norm_num)]
              by_cases hR : r1 = r2
              · subst hR
                rw [if_pos rfl]
                simp [natLexLt]
              · rw [if_neg hR]
            · rw [if_neg hI, if_neg hI]
          · rw [if_neg hN, if_neg hN]
        · rw [if_neg hS, if_neg hS]
      · rw [if_neg hM, if_neg hM]
    · rw [if_neg hH, if_neg hH]
  · rw [if_neg hD, if_neg hD]

theorem sortKey_eq_iff
    {d1 h1 m1 s1 n1 i1 r1 d2 h2 m2 s2 n2 i2 r2 : Nat}
    (hd1 : d1 < 10) (hh1 : h1 < 100) (hm1 : m1 < 100) (hs1 : s1 < 100)
    (hn1 : n1 < 10 ^ 9) (hi1 : i1 < 10 ^ 4) (hr1 : r1 < 10 ^ 8)
    (hd2 : d2 < 10) (hh2 : h2 < 100) (hm2 : m2 < 100) (hs2 : s2 < 100)
    (hn2 : n2 < 10 ^ 9) (hi2 : i2 < 10 ^ 4) (hr2 : r2 < 10 ^ 8) :
    sortKey d1 h1 m1 s1 n1 i1 r1 = sortKey d2 h2 m2 s2 n2 i2 r2
      ↔ (d1 = d2 ∧ h1 = h2 ∧ m1 = m2 ∧ s1 = s2 ∧ n1 = n2 ∧ i1 = i2 ∧ r1 = r2) := by
  have hh1p : h1 < 10 ^ 2 := by rw [ten_two]; exact hh1
  have hh2p : h2 < 10 ^ 2 := by rw [ten_two]; exact hh2
  have hm1p : m1 < 10 ^ 2 := by rw [ten_two]; exact hm1
  have hm2p : m2 < 10 ^ 2 := by rw [ten_two]; exact hm2
  have hs1p : s1 < 10 ^ 2 := by rw [ten_two]; exact hs1
  have hs2p : s2 < 10 ^ 2 := by rw [ten_two]; exact hs2
  have hd1p : d1 < 10 ^ 1 := by simpa using hd1
  have hd2p : d2 < 10 ^ 1 := by simpa using hd2
  simp only [sortKey]
  rw [← padNum_one hd1, ← padNum_one hd2]
  rw [eq_block hd1p hd2p (by norm_num)]
  rw [eq_block hh1p hh2p (by norm_num)]
  rw [eq_block hm1p hm2p (by norm_num)]
  rw [eq_block hs1p hs2p (by norm_num)]
  rw [eq_block hn1 hn2 (by norm_num)]
  rw [eq_block hi1 hi2 (by norm_num)]
  rw [padNum_eq_iff]

theorem sortKey_length
    {d h m s n i r : Nat}
    (hd : d < 10) (hh : h < 100) (hm : m < 100) (hs : s < 100)
    (hn : n < 10 ^ 9) (hi : i < 10 ^ 4) (hr : r < 10 ^ 8) :
    (sortKey d h m s n i r).length = 34 := by
  have hhp : h < 10 ^ 2 := by rw [ten_two]; exact hh
  have hmp : m < 10 ^ 2 := by rw [ten_two]; exact hm
  have hsp : s < 10 ^ 2 := by rw [ten_two]; exact hs
  have hdp : d < 10 ^ 1 := by simpa using hd
  simp only [sortKey]
  rw [← padNum_one hd]
  simp only [List.length_append, List.length_cons]
  rw [padNum_len hdp (by norm_num), padNum_len hhp (by norm_num),
    padNum_len hmp (by norm_num), padNum_len hsp (by norm_num),
    padNum_len hn (by norm_num), padNum_len hi (by norm_num),
    padNum_len hr (by norm_num)]

/-! ## Parser invariants -/

/-- The clock-field bounds that every time value reachable in a run has. -/
def timeOk (t : GoTime) : Prop :=
  t.hour < 24 ∧ t.minute < 60 ∧ t.second < 60 ∧ t.nano < 10 ^ 9

theorem emptyTime_timeOk : timeOk emptyTime := by
  refine ⟨?_, ?_, ?_, ?_⟩ <;> norm_num [emptyTime]

theorem goParseTime_ok {k : Nat} (hk : k ≤ 9) {m : List Char} {t : GoTime}
    (h : goParseTime k m = Except.ok t) : t.year = 0 ∧ timeOk t := by
  unfold goParseTime at h
  split at h
  case _ c1 c2 c3 c4 c5 c6 rest =>
    split at h
    case _ => exact absurd h (by simp)
    case _ hh heqh =>
      split at h
      case _ => exact absurd h (by simp)
      case _ mm heqm =>
        split at h
        case _ => exact absurd h (by simp)
        case _ ss heqs =>
          split at h
          case _ => exact absurd h (by simp)
          case _ nn heqn =>
            have hnn : nn < 10 ^ 9 := by
              split at heqn
              · cases heqn; norm_num
              case _ k2 frac =>
                split at heqn
                case isTrue hcond =>
                  cases heqn
                  simp only [Bool.and_eq_true, decide_eq_true_eq] at hcond
                  obtain ⟨⟨hlen, _⟩, hdigs⟩ := hcond
                  have hv : natOfDigits frac < 10 ^ k :=
                    hlen ▸ natOfDigits_lt frac (by simpa using hdigs)
                  have hmul : 10 ^ k * 10 ^ (9 - k) = 10 ^ 9 := by
                    rw [← pow_add]
                    congr 1
                    omega
                  calc natOfDigits frac * 10 ^ (9 - k)
                      < 10 ^ k * 10 ^ (9 - k) :=
                        mul_lt_mul_of_pos_right hv (pow_pos (by norm_num) _)
                    _ = 10 ^ 9 := hmul
                case isFalse => exact absurd heqn (by simp)
              case _ => exact absurd heqn (by simp)
            split at h
            · exact absurd h (by simp)
            · split at h
              · exact absurd h (by simp)
              · split at h
                · exact absurd h (by simp)
                · cases h
                  refine ⟨rfl, ?_, ?_, ?_, hnn⟩ <;> simp <;> omega
  case _ => exact absurd h (by simp)

theorem parseLineTime_ok_cases {line : List Char} {dv t : GoTime}
    (h : parseLineTime line dv = Except.ok t) :
    t = dv ∨ (t.year = 0 ∧ timeOk t) := by
  unfold parseLineTime at h
  split at h
  · exact Or.inr (goParseTime_ok (by norm_num) h)
  · split at h
    · exact Or.inr (goParseTime_ok (by norm_num) h)
    · split at h
      · exact Or.inr (goParseTime_ok (by norm_num) h)
      · split at h
        · exact Or.inr (goParseTime_ok (by norm_num) h)
        · cases h; exact Or.inl rfl

theorem parseLineTime_timeOk {line : List Char} {dv t : GoTime}
    (hdv : timeOk dv) (h : parseLineTime line dv = Except.ok t) : timeOk t := by
  rcases parseLineTime_ok_cases h with h1 | h1
  · rw [h1]; exact hdv
  · exact h1.2

theorem parseLineTime_isOk_indep (line : List Char) (dv1 dv2 : GoTime) :
    isOkE (parseLineTime line dv1) = isOkE (parseLineTime line dv2) := by
  unfold parseLineTime
  cases h9 : findSub [] (timeShape 9) [] line with
  | some m => rfl
  | none =>
    cases h6 : findSub [] (timeShape 6) [] line with
    | some m => rfl
    | none =>
      cases h3 : findSub [] (timeShape 3) [] line with
      | some m => rfl
      | none =>
        cases h0 : findSub [] (timeShape 0) [] line with
        | some m => rfl
        | none => rfl

theorem parseLineTime_no_match {line : List Char} (dv : GoTime)
    (h9 : findSub [] (timeShape 9) [] line = none)
    (h6 : findSub [] (timeShape 6) [] line = none)
    (h3 : findSub [] (timeShape 3) [] line = none)
    (h0 : findSub [] (timeShape 0) [] line = none) :
    parseLineTime line dv = Except.ok dv := by
  simp [parseLineTime, h9, h6, h3, h0]

/-! ## Worker-state invariants -/

/-- The run invariant of the rolling state: the carried time is bounded
and the day flag is 0 or 1. -/
def WOk (st : WState) : Prop := timeOk st.lineTime ∧ st.dayNumber ≤ 1

theorem initWState_WOk : WOk initWState := ⟨emptyTime_timeOk, by norm_num [initWState]⟩

theorem stepLine_cases {i : Nat} {short : List Char} {st : WState} {l : List Char}
    {st' : WState} (h : stepLine i short st l = Except.ok st') :
    ∃ t, parseLineTime l st.lineTime = Except.ok t ∧
      st'.lineTime = t ∧
      st'.firstTime = (if st.firstTime = emptyTime then t else st.firstTime) ∧
      st'.dayNumber =
        (if t.hour + 1 < (if st.firstTime = emptyTime then t else st.firstTime).hour then 1
         else st.dayNumber) ∧
      st'.rowNumber = st.rowNumber + 1 ∧
      st'.tagged = st.tagged ++
        [mkTagged st'.dayNumber t.hour t.minute t.second t.nano i st'.rowNumber short l] := by
  unfold stepLine at h
  split at h
  · exact absurd h (by simp)
  case _ t heq =>
    cases h
    exact ⟨t, heq, rfl, rfl, rfl, rfl, rfl⟩

theorem stepLine_WOk {i : Nat} {short : List Char} {st : WState} {l : List Char}
    {st' : WState} (hok : WOk st) (h : stepLine i short st l = Except.ok st') : WOk st' := by
  obtain ⟨t, hp, hlt, _, hday, _, _⟩ := stepLine_cases h
  constructor
  · rw [hlt]; exact parseLineTime_timeOk hok.1 hp
  · rw [hday]
    by_cases hc : t.hour + 1 < (if st.firstTime = emptyTime then t else st.firstTime).hour
    · rw [if_pos hc]
    · rw [if_neg hc]; exact hok.2

theorem runLines_spec :
    ∀ (ls : List (List Char)) (i : Nat) (short : List Char) (st st' : WState),
      WOk st → runLines i short st ls = Except.ok st' →
      WOk st' ∧ st'.rowNumber = st.rowNumber + ls.length ∧
      st.dayNumber ≤ st'.dayNumber ∧
      (st.firstTime ≠ emptyTime → st'.firstTime = st.firstTime) ∧
      ∃ new, st'.tagged = st.tagged ++ new ∧ new.length = ls.length ∧
        ∀ k (hk : k < new.length),
          ∃ day h m s n, day ≤ 1 ∧ h < 24 ∧ m < 60 ∧ s < 60 ∧ n < 10 ^ 9 ∧
            ∃ (hk2 : k < ls.length),
              new.get ⟨k, hk⟩ =
                mkTagged day h m s n i (st.rowNumber + k + 1) short (ls.get ⟨k, hk2⟩) := by
  intro ls
  induction ls with
  | nil =>
    intro i short st st' hok h
    cases h
    refine ⟨hok, by simp, le_refl _, fun _ => rfl, [], by simp, rfl, ?_⟩
    intro k hk
    simp at hk
  | cons l ls ih =>
    intro i short st st' hok h
    unfold runLines at h
    split at h
    · exact absurd h (by simp)
    case _ st2 heq =>
      have hok2 : WOk st2 := stepLine_WOk hok heq
      obtain ⟨t, hp, hlt, hft, hday, hrow, htag⟩ := stepLine_cases heq
      obtain ⟨hok', hrow', hdmono', hft', new2, htag', hlen', helem'⟩ :=
        ih i short st2 st' hok2 h
      have htOk : timeOk t := parseLineTime_timeOk hok.1 hp
      refine ⟨hok', ?_, ?_, ?_, ?_⟩
      · rw [hrow', hrow]
        simp
        omega
      · have h1 : st.dayNumber ≤ st2.dayNumber := by
          rw [hday]
          by_cases hc : t.hour + 1 < (if st.firstTime = emptyTime then t else st.firstTime).hour
          · rw [if_pos hc]; exact hok.2
          · rw [if_neg hc]
        exact le_trans h1 hdmono'
      · intro hne
        have h1 : st2.firstTime = st.firstTime := by rw [hft, if_neg hne]
        rw [hft' (by rw [h1]; exact hne), h1]
      · refine ⟨mkTagged st2.dayNumber t.hour t.minute t.second t.nano i st2.rowNumber short l
          :: new2, ?_, ?_, ?_⟩
        · rw [htag', htag]
          simp
        · simp [hlen']
        · intro k hk
          cases k with
          | zero =>
            refine ⟨st2.dayNumber, t.hour, t.minute, t.second, t.nano,
              hok2.2, htOk.1, htOk.2.1, htOk.2.2.1, htOk.2.2.2, by simp, ?_⟩
            simp [hrow]
          | succ k2 =>
            have hk2 : k2 < new2.length := by simpa using hk
            obtain ⟨day, hh, mm, ss, nn, hday2, hb1, hb2, hb3, hb4, hkl, helem⟩ :=
              helem' k2 hk2
            refine ⟨day, hh, mm, ss, nn, hday2, hb1, hb2, hb3, hb4, by simpa using hkl, ?_⟩
            simp only [List.get_cons_succ]
            rw [helem]
            congr 2
            · rw [hrow]
              omega

theorem processSource_spec {pfx : List Char} {i : Nat} {src : Source}
    {b : List (List Char)} (h : processSource pfx i src = Except.ok b) :
    b.length = src.lines.length ∧
    ∀ k (hk : k < b.length),
      ∃ day hh mm ss nn, day ≤ 1 ∧ hh < 24 ∧ mm < 60 ∧ ss < 60 ∧ nn < 10 ^ 9 ∧
        ∃ (hk2 : k < src.lines.length),
          b.get ⟨k, hk⟩ =
            mkTagged day hh mm ss nn i (k + 1)
              (shortName (trimPref src.name pfx)) (src.lines.get ⟨k, hk2⟩) := by
  unfold processSource at h
  split at h
  · exact absurd h (by simp)
  · split at h
    · exact absurd h (by simp)
    case _ st heq =>
      split at h
      · exact absurd h (by simp)
      · cases h
        obtain ⟨_, _, _, _, new, htag, hlen, helem⟩ :=
          runLines_spec src.lines i (shortName (trimPref src.name pfx)) initWState st
            initWState_WOk heq
        have hnew : st.tagged = new := by simpa [initWState] using htag
        rw [hnew]
        refine ⟨hlen, ?_⟩
        intro k hk
        obtain ⟨day, hh, mm, ss, nn, hday, h1, h2, h3, h4, hk2, he⟩ := helem k hk
        exact ⟨day, hh, mm, ss, nn, hday, h1, h2, h3, h4, hk2, by
          rw [he]
          congr 2
          simp [initWState]⟩

theorem runAll_spec :
    ∀ (sources : List Source) (pfx : List Char) (i0 : Nat) (bs : List (List (List Char))),
      runAll pfx i0 sources = Except.ok bs →
      bs.length = sources.length ∧
      ∀ j (hj : j < bs.length),
        ∃ (hj2 : j < sources.length),
          processSource pfx (i0 + j) (sources.get ⟨j, hj2⟩) = Except.ok (bs.get ⟨j, hj⟩) := by
  intro sources
  induction sources with
  | nil =>
    intro pfx i0 bs h
    cases h
    exact ⟨rfl, fun j hj => by simp at hj⟩
  | cons s ss ih =>
    intro pfx i0 bs h
    unfold runAll at h
    split at h
    · exact absurd h (by simp)
    case _ b heqb =>
      split at h
      · exact absurd h (by simp)
      case _ bs2 heqbs =>
        cases h
        obtain ⟨hlen, helem⟩ := ih pfx (i0 + 1) bs2 heqbs
        refine ⟨by simp [hlen], ?_⟩
        intro j hj
        cases j with
        | zero =>
          refine ⟨by simp, ?_⟩
          simpa using heqb
        | succ j2 =>
          have hj2 : j2 < bs2.length := by simpa using hj
          obtain ⟨hjs, he⟩ := helem j2 hj2
          refine ⟨by simpa using hjs, ?_⟩
          have : i0 + 1 + j2 = i0 + (j2 + 1) := by omega
          rw [← this]
          simpa using he

/-! ## Cascade and tagged-line helpers -/

theorem parseLineTime_m9 {line m : List Char} (fb : GoTime)
    (h9 : findSub [] (timeShape 9) [] line = some m) :
    parseLineTime line fb = goParseTime 9 m := by
  simp [parseLineTime, h9]

theorem parseLineTime_m6 {line m : List Char} (fb : GoTime)
    (h9 : findSub [] (timeShape 9) [] line = none)
    (h6 : findSub [] (timeShape 6) [] line = some m) :
    parseLineTime line fb = goParseTime 6 m := by
  simp [parseLineTime, h9, h6]

theorem parseLineTime_m3 {line m : List Char} (fb : GoTime)
    (h9 : findSub [] (timeShape 9) [] line = none)
    (h6 : findSub [] (timeShape 6) [] line = none)
    (h3 : findSub [] (timeShape 3) [] line = some m) :
    parseLineTime line fb = goParseTime 3 m := by
  simp [parseLineTime, h9, h6, h3]

theorem parseLineTime_m0 {line m : List Char} (fb : GoTime)
    (h9 : findSub [] (timeShape 9) [] line = none)
    (h6 : findSub [] (timeShape 6) [] line = none)
    (h3 : findSub [] (timeShape 3) [] line = none)
    (h0 : findSub [] (timeShape 0) [] line = some m) :
    parseLineTime line fb = goParseTime 0 m := by
  simp [parseLineTime, h9, h6, h3, h0]

theorem getTimeKey_first {line m d : List Char}
    (h1 : subAt lf12pre (timeShapeAny 6) [] line = some m) :
    getTimeKey line d = m ++ ['0', '0', '0'] := by
  simp [getTimeKey, h1]

theorem getTimeKey_default {line d : List Char}
    (h1 : subAt lf12pre (timeShapeAny 6) [] line = none)
    (h2 : subAt lf12pre (timeShapeAny 3) [] line = none)
    (h3 : subAt lf34pre (timeShapeAny 6) [] line = none)
    (h4 : subAt lf34pre (timeShapeAny 3) [] line = none)
    (h5 : subAt lf5pre (timeShapeAny 9) [lit 'Z'] line = none)
    (h6 : findSub [] (timeShapeAny 6) [] line = none)
    (h7 : findSub [] (timeShapeAny 3) [] line = none)
    (h8 : findSub [] (timeShapeAny 0) [] line = none) :
    getTimeKey line d = d := by
  simp [getTimeKey, h1, h2, h3, h4, h5, h6, h7, h8]

theorem mkTagged_take {day h m s n i r : Nat} {tag raw : List Char}
    (hlen : (sortKey day h m s n i r).length = 34) :
    (mkTagged day h m s n i r tag raw).take 34 = sortKey day h m s n i r :=
  List.take_left' hlen

theorem mkTagged_drop {day h m s n i r : Nat} {tag raw : List Char}
    (hlen : (sortKey day h m s n i r).length = 34) :
    (mkTagged day h m s n i r tag raw).drop 35
      = displayTime h m s n ++ ' ' :: (padRight ('[' :: tag ++ [']']) 62 ++ ' ' :: raw) := by
  unfold mkTagged
  have h2 : (sortKey day h m s n i r ++ [' ']).length = 35 := by
    simp [hlen]
  calc (sortKey day h m s n i r ++ ' ' ::
          (displayTime h m s n ++ ' ' :: (padRight ('[' :: tag ++ [']']) 62 ++ ' ' :: raw))).drop 35
      = ((sortKey day h m s n i r ++ [' ']) ++
          (displayTime h m s n ++ ' ' :: (padRight ('[' :: tag ++ [']']) 62 ++ ' ' :: raw))).drop 35 := by
        simp
    _ = displayTime h m s n ++ ' ' :: (padRight ('[' :: tag ++ [']']) 62 ++ ' ' :: raw) :=
        List.drop_left' h2

/-- Every line of every collected batch of a bounded run is a tagged line
whose sort key has its source index and row number in the fixed widths. -/
theorem run_elem_shape {pfx : List Char} {sources : List Source}
    {bs : List (List (List Char))}
    (hslen : sources.length ≤ 10 ^ 4)
    (hllen : ∀ s ∈ sources, s.lines.length < 10 ^ 8)
    (h : runAll pfx 0 sources = Except.ok bs)
    {j : Nat} (hj : j < bs.length) {k : Nat} (hk : k < (bs.get ⟨j, hj⟩).length) :
    ∃ day hh mm ss nn tag raw,
      day ≤ 1 ∧ hh < 24 ∧ mm < 60 ∧ ss < 60 ∧ nn < 10 ^ 9 ∧ j < 10 ^ 4 ∧
        k + 1 < 10 ^ 8 ∧ (∃ s ∈ sources, raw ∈ s.lines) ∧
        (bs.get ⟨j, hj⟩).get ⟨k, hk⟩ = mkTagged day hh mm ss nn j (k + 1) tag raw ∧
        (sortKey day hh mm ss nn j (k + 1)).length = 34 := by
  obtain ⟨hbl, hspec⟩ := runAll_spec sources pfx 0 bs h
  obtain ⟨hj2, hproc⟩ := hspec j hj
  obtain ⟨hlen2, helem⟩ := processSource_spec hproc
  obtain ⟨day, hh, mm, ss, nn, hday, hb1, hb2, hb3, hb4, hk2, he⟩ := helem k hk
  have hjlt : j < 10 ^ 4 := by omega
  have hrlt : k + 1 < 10 ^ 8 := by
    have := hllen (sources.get ⟨j, hj2⟩) (List.get_mem _ _ _)
    omega
  refine ⟨day, hh, mm, ss, nn, shortName (trimPref (sources.get ⟨j, hj2⟩).name pfx),
    (sources.get ⟨j, hj2⟩).lines.get ⟨k, hk2⟩,
    hday, hb1, hb2, hb3, hb4, hjlt, hrlt,
    ⟨sources.get ⟨j, hj2⟩, List.get_mem _ _ _, List.get_mem _ _ _⟩, ?_, ?_⟩
  · simpa using he
  · exact sortKey_length (by omega) (by omega) (by omega) (by omega) hb4 hjlt hrlt


/-- Distinct tagged lines of a bounded run: equality of two tagged lines
with 34-character keys forces equal source index and row number. -/
theorem mkTagged_eq_idx
    {d1 h1 m1 s1 n1 i1 r1 d2 h2 m2 s2 n2 i2 r2 : Nat} {tag1 raw1 tag2 raw2 : List Char}
    (hd1 : d1 < 10) (hh1 : h1 < 100) (hm1 : m1 < 100) (hs1 : s1 < 100)
    (hn1 : n1 < 10 ^ 9) (hi1 : i1 < 10 ^ 4) (hr1 : r1 < 10 ^ 8)
    (hd2 : d2 < 10) (hh2 : h2 < 100) (hm2 : m2 < 100) (hs2 : s2 < 100)
    (hn2 : n2 < 10 ^ 9) (hi2 : i2 < 10 ^ 4) (hr2 : r2 < 10 ^ 8)
    (h : mkTagged d1 h1 m1 s1 n1 i1 r1 tag1 raw1 = mkTagged d2 h2 m2 s2 n2 i2 r2 tag2 raw2) :
    i1 = i2 ∧ r1 = r2 := by
  have hl1 : (sortKey d1 h1 m1 s1 n1 i1 r1).length = 34 :=
    sortKey_length hd1 hh1 hm1 hs1 hn1 hi1 hr1
  have hl2 : (sortKey d2 h2 m2 s2 n2 i2 r2).length = 34 :=
    sortKey_length hd2 hh2 hm2 hs2 hn2 hi2 hr2
  have htake := congrArg (fun l => List.take 34 l) h
  simp only [mkTagged_take hl1, mkTagged_take hl2] at htake
  have hfields :=
    (sortKey_eq_iff hd1 hh1 hm1 hs1 hn1 hi1 hr1 hd2 hh2 hm2 hs2 hn2 hi2 hr2).mp htake
  exact ⟨hfields.2.2.2.2.2.1, hfields.2.2.2.2.2.2⟩

/-- The tagged lines of a bounded run are pairwise distinct: the
`(sourceIndex, rowNumber)` pair embedded in each sort key is unique. -/
theorem run_nodup {pfx : List Char} {sources : List Source}
    {bs : List (List (List Char))}
    (hslen : sources.length ≤ 10 ^ 4)
    (hllen : ∀ s ∈ sources, s.lines.length < 10 ^ 8)
    (h : runAll pfx 0 sources = Except.ok bs) : bs.flatten.Nodup := by
  rw [List.nodup_flatten]
  constructor
  · intro b hb
    obtain ⟨⟨j, hj⟩, hbe⟩ := List.mem_iff_get.mp hb
    subst hbe
    rw [List.Nodup, List.pairwise_iff_get]
    intro ⟨k1, hk1⟩ ⟨k2, hk2⟩ hklt
    obtain ⟨da1, ha1, ma1, sa1, na1, tg1, rw1, pd1, ph1, pm1, ps1, pn1, pj1, pr1, _, he1, _⟩ :=
      run_elem_shape hslen hllen h hj hk1
    obtain ⟨da2, ha2, ma2, sa2, na2, tg2, rw2, pd2, ph2, pm2, ps2, pn2, pj2, pr2, _, he2, _⟩ :=
      run_elem_shape hslen hllen h hj hk2
    intro heq
    rw [he1, he2] at heq
    have hidx :=
      (mkTagged_eq_idx (by omega) (by omega) (by omega) (by omega) pn1 pj1 pr1
        (by omega) (by omega) (by omega) (by omega) pn2 pj2 pr2 heq).2
    simp only [Fin.lt_def] at hklt
    omega
  · rw [List.pairwise_iff_get]
    intro ⟨j1, hj1⟩ ⟨j2, hj2⟩ hjlt
    intro x hx1 hx2
    obtain ⟨⟨k1, hk1⟩, he1⟩ := List.mem_iff_get.mp hx1
    obtain ⟨⟨k2, hk2⟩, he2⟩ := List.mem_iff_get.mp hx2
    obtain ⟨da1, ha1, ma1, sa1, na1, tg1, rw1, pd1, ph1, pm1, ps1, pn1, pj1, pr1, _, hs1, _⟩ :=
      run_elem_shape hslen hllen h hj1 hk1
    obtain ⟨da2, ha2, ma2, sa2, na2, tg2, rw2, pd2, ph2, pm2, ps2, pn2, pj2, pr2, _, hs2, _⟩ :=
      run_elem_shape hslen hllen h hj2 hk2
    have heq : mkTagged da1 ha1 ma1 sa1 na1 j1 (k1 + 1) tg1 rw1
        = mkTagged da2 ha2 ma2 sa2 na2 j2 (k2 + 1) tg2 rw2 := by
      rw [← hs1, ← hs2, he1, he2]
    have hidx :=
      (mkTagged_eq_idx (by omega) (by omega) (by omega) (by omega) pn1 pj1 pr1
        (by omega) (by omega) (by omega) (by omega) pn2 pj2 pr2 heq).1
    simp only [Fin.lt_def] at hjlt
    omega

theorem combine_eq {pfx : List Char} {sources : List Source} {bs : List (List (List Char))}
    (h : runAll pfx 0 sources = Except.ok bs) :
    combine pfx sources = Except.ok (combineFrom bs) := by
  simp [combine, h]

theorem goParseTime_frac_exact {k : Nat} {c1 c2 c3 c4 c5 c6 : Char} {frac : List Char}
    (hfl : frac.length = k) (hk0 : k ≠ 0) (hfd : frac.all isDig = true)
    (h1 : isDig c1 = true) (h2 : isDig c2 = true) (h3 : isDig c3 = true)
    (h4 : isDig c4 = true) (h5 : isDig c5 = true) (h6 : isDig c6 = true)
    (hhr : 10 * digitVal c1 + digitVal c2 < 24)
    (hmr : 10 * digitVal c3 + digitVal c4 < 60)
    (hsr : 10 * digitVal c5 + digitVal c6 < 60) :
    goParseTime k (c1 :: c2 :: ':' :: c3 :: c4 :: ':' :: c5 :: c6 :: '.' :: frac)
      = Except.ok ⟨0, 10 * digitVal c1 + digitVal c2, 10 * digitVal c3 + digitVal c4,
          10 * digitVal c5 + digitVal c6, natOfDigits frac * 10 ^ (9 - k)⟩ := by
  obtain ⟨k2, rfl⟩ : ∃ k2, k = k2 + 1 := ⟨k - 1, by omega⟩
  simp [goParseTime, parse2, h1, h2, h3, h4, h5, h6, hfl, hfd]
  rw [if_neg (by omega), if_neg (by omega), if_neg (by omega)]

theorem goParseTime_bare_exact {c1 c2 c3 c4 c5 c6 : Char}
    (h1 : isDig c1 = true) (h2 : isDig c2 = true) (h3 : isDig c3 = true)
    (h4 : isDig c4 = true) (h5 : isDig c5 = true) (h6 : isDig c6 = true)
    (hhr : 10 * digitVal c1 + digitVal c2 < 24)
    (hmr : 10 * digitVal c3 + digitVal c4 < 60)
    (hsr : 10 * digitVal c5 + digitVal c6 < 60) :
    goParseTime 0 [c1, c2, ':', c3, c4, ':', c5, c6]
      = Except.ok ⟨0, 10 * digitVal c1 + digitVal c2, 10 * digitVal c3 + digitVal c4,
          10 * digitVal c5 + digitVal c6, 0⟩ := by
  simp [goParseTime, parse2, h1, h2, h3, h4, h5, h6]
  rw [if_neg (by omega), if_neg (by omega), if_neg (by omega)]

/-! ## The claims -/

/-- C1 is false as stated: on the line `99:99:99` the time pattern
matches but `time.Parse` rejects the out-of-range hour, so `parseLineTime`
returns an error rather than the fallback, and a run over a source that
contains this line - with no open or scan failure - fails. -/
theorem c1_counterexample :
    isOkE (parseLineTime ("99:99:99".toList) emptyTime) = false ∧
    (⟨"a.log".toList, false, false, ["99:99:99".toList]⟩ : Source).openFails = false ∧
    (⟨"a.log".toList, false, false, ["99:99:99".toList]⟩ : Source).scanFails = false ∧
    isOkE (combine [] [⟨"a.log".toList, false, false, ["99:99:99".toList]⟩]) = false := by
  decide

/-- C1 (amended): when no pattern matches a line, the extractor returns
the provided fallback exactly unchanged, and whether extraction fails
does not depend on the fallback; but extraction can fail - only when a
matched time-shaped substring has an out-of-range field - and that
failure is surfaced as an error of the run. -/
theorem c1_parse_fallback :
    (∀ (line : List Char) (fb : GoTime),
      findSub [] (timeShape 9) [] line = none →
      findSub [] (timeShape 6) [] line = none →
      findSub [] (timeShape 3) [] line = none →
      findSub [] (timeShape 0) [] line = none →
      parseLineTime line fb = Except.ok fb) ∧
    (∀ (line : List Char) (fb1 fb2 : GoTime),
      isOkE (parseLineTime line fb1) = isOkE (parseLineTime line fb2)) :=
  ⟨fun _ fb h9 h6 h3 h0 => parseLineTime_no_match fb h9 h6 h3 h0,
   fun line fb1 fb2 => parseLineTime_isOk_indep line fb1 fb2⟩

theorem c1_parse_fallback_witness :
    parseLineTime ("no stamp at all".toList) ⟨0, 5, 6, 7, 8⟩ = Except.ok ⟨0, 5, 6, 7, 8⟩ :=
  c1_parse_fallback.1 ("no stamp at all".toList) ⟨0, 5, 6, 7, 8⟩
    (by decide) (by decide) (by decide) (by decide)

/-- C3 is false as stated: neither extractor implements the nine-pattern
order of section 4.1. The main program's `parseLineTime` has no anchored
patterns, so on a line whose prefix matches anchored pattern 1 but which
also contains a 9-digit-fraction time later, it returns the later time
while the spec's order returns the prefix time; and `combiner.go`'s
`getTimeKey` has no anywhere-in-line 9-digit pattern, so a bare line with
a 9-digit fraction is truncated to 6 digits instead of taken in full. -/
theorem c3_counterexample :
    parseLineTime ("I0903 22:10:34.002031 x 11:11:11.123456789".toList) emptyTime
        = Except.ok ⟨0, 11, 11, 11, 123456789⟩ ∧
    specOrderExtract ("I0903 22:10:34.002031 x 11:11:11.123456789".toList) emptyTime
        = ⟨0, 22, 10, 34, 2031000⟩ ∧
    (⟨0, 11, 11, 11, 123456789⟩ : GoTime) ≠ ⟨0, 22, 10, 34, 2031000⟩ ∧
    getTimeKey ("x 22:10:34.123456789".toList) [] = "22:10:34.123456000".toList ∧
    specOrderExtract ("x 22:10:34.123456789".toList) emptyTime
        = ⟨0, 22, 10, 34, 123456789⟩ := by
  decide

/-- C3 (amended): `parseLineTime` applies exactly four unanchored
patterns in decreasing precision order (9-, 6-, 3-digit fraction, then
bare), returning the parse of the first match and the fallback when none
matches; `getTimeKey` tries its first anchored pattern before everything
else and returns its default key only when all eight of its patterns
fail - neither follows the full nine-pattern order of section 4.1. -/
theorem c3_pattern_order :
    (∀ (line : List Char) (fb : GoTime) (m : List Char),
      findSub [] (timeShape 9) [] line = some m →
      parseLineTime line fb = goParseTime 9 m) ∧
    (∀ (line : List Char) (fb : GoTime) (m : List Char),
      findSub [] (timeShape 9) [] line = none →
      findSub [] (timeShape 6) [] line = some m →
      parseLineTime line fb = goParseTime 6 m) ∧
    (∀ (line : List Char) (fb : GoTime) (m : List Char),
      findSub [] (timeShape 9) [] line = none →
      findSub [] (timeShape 6) [] line = none →
      findSub [] (timeShape 3) [] line = some m →
      parseLineTime line fb = goParseTime 3 m) ∧
    (∀ (line : List Char) (fb : GoTime) (m : List Char),
      findSub [] (timeShape 9) [] line = none →
      findSub [] (timeShape 6) [] line = none →
      findSub [] (timeShape 3) [] line = none →
      findSub [] (timeShape 0) [] line = some m →
      parseLineTime line fb = goParseTime 0 m) ∧
    (∀ (line : List Char) (fb : GoTime),
      findSub [] (timeShape 9) [] line = none →
      findSub [] (timeShape 6) [] line = none →
      findSub [] (timeShape 3) [] line = none →
      findSub [] (timeShape 0) [] line = none →
      parseLineTime line fb = Except.ok fb) ∧
    (∀ (line d m : List Char),
      subAt lf12pre (timeShapeAny 6) [] line = some m →
      getTimeKey line d = m ++ ['0', '0', '0']) ∧
    (∀ (line d : List Char),
      subAt lf12pre (timeShapeAny 6) [] line = none →
      subAt lf12pre (timeShapeAny 3) [] line = none →
      subAt lf34pre (timeShapeAny 6) [] line = none →
      subAt lf34pre (timeShapeAny 3) [] line = none →
      subAt lf5pre (timeShapeAny 9) [lit 'Z'] line = none →
      findSub [] (timeShapeAny 6) [] line = none →
      findSub [] (timeShapeAny 3) [] line = none →
      findSub [] (timeShapeAny 0) [] line = none →
      getTimeKey line d = d) :=
  ⟨fun _ fb m h9 => parseLineTime_m9 fb h9,
   fun _ fb m h9 h6 => parseLineTime_m6 fb h9 h6,
   fun _ fb m h9 h6 h3 => parseLineTime_m3 fb h9 h6 h3,
   fun _ fb m h9 h6 h3 h0 => parseLineTime_m0 fb h9 h6 h3 h0,
   fun _ fb h9 h6 h3 h0 => parseLineTime_no_match fb h9 h6 h3 h0,
   fun _ _ _ h1 => getTimeKey_first h1,
   fun _ _ h1 h2 h3 h4 h5 h6 h7 h8 => getTimeKey_default h1 h2 h3 h4 h5 h6 h7 h8⟩

theorem c3_pattern_order_witness :
    parseLineTime ("a 01:02:03.123456789".toList) emptyTime
      = goParseTime 9 ("01:02:03.123456789".toList) :=
  c3_pattern_order.1 ("a 01:02:03.123456789".toList) emptyTime
    ("01:02:03.123456789".toList) (by decide)

/-- C4: for a line matched by an anywhere-in-line pattern, the extracted
timestamp is the parse of the first matching pattern's submatch, and that
parse is numerically exact: hour, minute and second are the matched
digits and the nanosecond field is the matched fraction zero-filled on
the right to nine digits (absent digits are zero); in particular a line
containing `22:10:34.002031` yields hour 22, minute 10, second 34 and
2031000 nanoseconds. -/
theorem c4_anywhere_exact :
    (∀ (line : List Char) (fb : GoTime) (m : List Char),
      findSub [] (timeShape 9) [] line = some m →
      parseLineTime line fb = goParseTime 9 m) ∧
    (∀ (line : List Char) (fb : GoTime) (m : List Char),
      findSub [] (timeShape 9) [] line = none →
      findSub [] (timeShape 6) [] line = some m →
      parseLineTime line fb = goParseTime 6 m) ∧
    (∀ (line : List Char) (fb : GoTime) (m : List Char),
      findSub [] (timeShape 9) [] line = none →
      findSub [] (timeShape 6) [] line = none →
      findSub [] (timeShape 3) [] line = some m →
      parseLineTime line fb = goParseTime 3 m) ∧
    (∀ (line : List Char) (fb : GoTime) (m : List Char),
      findSub [] (timeShape 9) [] line = none →
      findSub [] (timeShape 6) [] line = none →
      findSub [] (timeShape 3) [] line = none →
      findSub [] (timeShape 0) [] line = some m →
      parseLineTime line fb = goParseTime 0 m) ∧
    (∀ (k : Nat) (c1 c2 c3 c4 c5 c6 : Char) (frac : List Char),
      frac.length = k → k ≠ 0 → frac.all isDig = true →
      isDig c1 = true → isDig c2 = true → isDig c3 = true →
      isDig c4 = true → isDig c5 = true → isDig c6 = true →
      10 * digitVal c1 + digitVal c2 < 24 →
      10 * digitVal c3 + digitVal c4 < 60 →
      10 * digitVal c5 + digitVal c6 < 60 →
      goParseTime k (c1 :: c2 :: ':' :: c3 :: c4 :: ':' :: c5 :: c6 :: '.' :: frac)
        = Except.ok ⟨0, 10 * digitVal c1 + digitVal c2, 10 * digitVal c3 + digitVal c4,
            10 * digitVal c5 + digitVal c6, natOfDigits frac * 10 ^ (9 - k)⟩) ∧
    (∀ (c1 c2 c3 c4 c5 c6 : Char),
      isDig c1 = true → isDig c2 = true → isDig c3 = true →
      isDig c4 = true → isDig c5 = true → isDig c6 = true →
      10 * digitVal c1 + digitVal c2 < 24 →
      10 * digitVal c3 + digitVal c4 < 60 →
      10 * digitVal c5 + digitVal c6 < 60 →
      goParseTime 0 [c1, c2, ':', c3, c4, ':', c5, c6]
        = Except.ok ⟨0, 10 * digitVal c1 + digitVal c2, 10 * digitVal c3 + digitVal c4,
            10 * digitVal c5 + digitVal c6, 0⟩) ∧
    parseLineTime ("a 22:10:34.002031 b".toList) emptyTime
      = Except.ok ⟨0, 22, 10, 34, 2031000⟩ :=
  ⟨fun _ fb m h9 => parseLineTime_m9 fb h9,
   fun _ fb m h9 h6 => parseLineTime_m6 fb h9 h6,
   fun _ fb m h9 h6 h3 => parseLineTime_m3 fb h9 h6 h3,
   fun _ fb m h9 h6 h3 h0 => parseLineTime_m0 fb h9 h6 h3 h0,
   fun _ c1 c2 c3 c4 c5 c6 frac hfl hk0 hfd h1 h2 h3 h4 h5 h6 hhr hmr hsr =>
     goParseTime_frac_exact hfl hk0 hfd h1 h2 h3 h4 h5 h6 hhr hmr hsr,
   fun c1 c2 c3 c4 c5 c6 h1 h2 h3 h4 h5 h6 hhr hmr hsr =>
     goParseTime_bare_exact h1 h2 h3 h4 h5 h6 hhr hmr hsr,
   by decide⟩

theorem c4_anywhere_exact_witness :
    goParseTime 6 ('2' :: '2' :: ':' :: '1' :: '0' :: ':' :: '3' :: '4' :: '.' ::
        ['0', '0', '2', '0', '3', '1'])
      = Except.ok ⟨0, 22, 10, 34, 2031000⟩ := by
  have h := c4_anywhere_exact.2.2.2.2.1 6 '2' '2' '1' '0' '3' '4'
    ['0', '0', '2', '0', '3', '1'] (by decide) (by decide) (by decide) (by decide)
    (by decide) (by decide) (by decide) (by decide) (by decide) (by decide)
    (by decide) (by decide)
  rw [h]
  decide

theorem sortKey_day01_lt (h m s n i r h2 m2 s2 n2 i2 r2 : Nat) :
    listLt (sortKey 0 h m s n i r) (sortKey 1 h2 m2 s2 n2 i2 r2) = true := by
  simp only [sortKey]
  rw [show natToDigits 0 = ['0'] from by decide, show natToDigits 1 = ['1'] from by decide]
  simp only [List.singleton_append]
  simp [listLt]

/-- C6: within a source the day flag starts at 0, every successful step
keeps it or raises it to 1, it becomes 1 exactly when the line's hour is
more than one hour earlier than the (just updated) first time's hour or
it already was 1, it stays 1 over any remaining lines, and every sort key
built with day 1 compares strictly after every sort key built with day 0. -/
theorem c6_day_rollover_sticky :
    initWState.dayNumber = 0 ∧
    (∀ (i : Nat) (short : List Char) (st : WState) (l : List Char) (st' : WState),
      WOk st → stepLine i short st l = Except.ok st' → st.dayNumber ≤ st'.dayNumber) ∧
    (∀ (i : Nat) (short : List Char) (st : WState) (l : List Char) (st' : WState) (t : GoTime),
      stepLine i short st l = Except.ok st' →
      parseLineTime l st.lineTime = Except.ok t →
      (st'.dayNumber = 1 ↔ (st.dayNumber = 1 ∨
        t.hour + 1 < (if st.firstTime = emptyTime then t else st.firstTime).hour))) ∧
    (∀ (i : Nat) (short : List Char) (st : WState) (ls : List (List Char)) (st' : WState),
      WOk st → runLines i short st ls = Except.ok st' →
      st.dayNumber ≤ st'.dayNumber) ∧
    (∀ h m s n i r h2 m2 s2 n2 i2 r2 : Nat,
      listLt (sortKey 0 h m s n i r) (sortKey 1 h2 m2 s2 n2 i2 r2) = true) := by
  refine ⟨rfl, ?_, ?_, ?_, ?_⟩
  · intro i short st l st' hok h
    obtain ⟨t, hp, _, _, hday, _, _⟩ := stepLine_cases h
    rw [hday]
    by_cases hc : t.hour + 1 < (if st.firstTime = emptyTime then t else st.firstTime).hour
    · rw [if_pos hc]; exact hok.2
    · rw [if_neg hc]
  · intro i short st l st' t h hp
    obtain ⟨t2, hp2, _, _, hday, _, _⟩ := stepLine_cases h
    rw [hp] at hp2
    cases hp2
    rw [hday]
    by_cases hc : t.hour + 1 < (if st.firstTime = emptyTime then t else st.firstTime).hour
    · rw [if_pos hc]
      simp [hc]
    · rw [if_neg hc]
      simp [hc]
  · intro i short st ls st' hok h
    exact (runLines_spec ls i short st st' hok h).2.2.1
  · exact sortKey_day01_lt

theorem c6_day_rollover_sticky_witness :
    initWState.dayNumber ≤
      (⟨⟨0, 23, 0, 0, 0⟩, ⟨0, 23, 0, 0, 0⟩, 0, 1,
        [mkTagged 0 23 0 0 0 0 1 [] ("23:00:00 x".toList)]⟩ : WState).dayNumber :=
  c6_day_rollover_sticky.2.1 0 [] initWState ("23:00:00 x".toList)
    ⟨⟨0, 23, 0, 0, 0⟩, ⟨0, 23, 0, 0, 0⟩, 0, 1,
      [mkTagged 0 23 0 0 0 0 1 [] ("23:00:00 x".toList)]⟩
    initWState_WOk (by decide)

/-- C7 is false as stated: a source whose first line carries no
timestamp extracts the zero-value fallback on that (successfully
processed) first line, so `firstTime` is first assigned the zero value;
when a later line carries `23:00:00`, `firstTime` is re-assigned to that
time, so it is not fixed after its first assignment. -/
theorem c7_counterexample :
    parseLineTime ("hello".toList) emptyTime = Except.ok emptyTime ∧
    runLines 0 [] initWState ["hello".toList, "23:00:00 a".toList]
      = Except.ok ⟨⟨0, 23, 0, 0, 0⟩, ⟨0, 23, 0, 0, 0⟩, 0, 2,
          [mkTagged 0 0 0 0 0 0 1 [] ("hello".toList),
           mkTagged 0 23 0 0 0 0 2 [] ("23:00:00 a".toList)]⟩ ∧
    (⟨0, 23, 0, 0, 0⟩ : GoTime) ≠ emptyTime := by
  decide

/-- C7 (amended): `firstTime` is re-assigned on every line while it still
equals the zero value (which is what the first lines extract when they
carry no timestamp) and it holds the first extracted non-zero timestamp;
once it differs from the zero value it is never changed for the rest of
the source; and the day-rollover comparison of a line is made against the
`firstTime` value as updated by that line. -/
theorem c7_first_time :
    (∀ (i : Nat) (short : List Char) (st : WState) (l : List Char) (st' : WState),
      stepLine i short st l = Except.ok st' →
      st.firstTime ≠ emptyTime → st'.firstTime = st.firstTime) ∧
    (∀ (i : Nat) (short : List Char) (st : WState) (ls : List (List Char)) (st' : WState),
      WOk st → runLines i short st ls = Except.ok st' →
      st.firstTime ≠ emptyTime → st'.firstTime = st.firstTime) ∧
    (∀ (i : Nat) (short : List Char) (st : WState) (l : List Char) (st' : WState) (t : GoTime),
      stepLine i short st l = Except.ok st' →
      parseLineTime l st.lineTime = Except.ok t →
      st.firstTime = emptyTime → st'.firstTime = t) ∧
    (∀ (i : Nat) (short : List Char) (st : WState) (l : List Char) (st' : WState) (t : GoTime),
      stepLine i short st l = Except.ok st' →
      parseLineTime l st.lineTime = Except.ok t →
      st'.dayNumber = (if t.hour + 1 < st'.firstTime.hour then 1 else st.dayNumber)) := by
  refine ⟨?_, ?_, ?_, ?_⟩
  · intro i short st l st' h hne
    obtain ⟨t, _, _, hft, _, _, _⟩ := stepLine_cases h
    rw [hft, if_neg hne]
  · intro i short st ls st' hok h hne
    exact (runLines_spec ls i short st st' hok h).2.2.2.1 hne
  · intro i short st l st' t h hp hempty
    obtain ⟨t2, hp2, _, hft, _, _, _⟩ := stepLine_cases h
    rw [hp] at hp2
    cases hp2
    rw [hft, if_pos hempty]
  · intro i short st l st' t h hp
    obtain ⟨t2, hp2, _, hft, hday, _, _⟩ := stepLine_cases h
    rw [hp] at hp2
    cases hp2
    rw [hday, hft]

theorem c7_first_time_witness :
    (⟨emptyTime, ⟨0, 5, 0, 0, 0⟩, 1, 1,
        [mkTagged 1 0 0 0 0 0 1 [] ("xyz".toList)]⟩ : WState).firstTime
      = (⟨emptyTime, ⟨0, 5, 0, 0, 0⟩, 0, 0, []⟩ : WState).firstTime :=
  c7_first_time.1 0 [] ⟨emptyTime, ⟨0, 5, 0, 0, 0⟩, 0, 0, []⟩ ("xyz".toList)
    ⟨emptyTime, ⟨0, 5, 0, 0, 0⟩, 1, 1, [mkTagged 1 0 0 0 0 0 1 [] ("xyz".toList)]⟩
    (by decide) (by decide)

/-- C2: under the in-run field ranges (day flag at most 1, valid clock
fields, source index within its 4-digit width, row number within its
8-digit width), byte-wise comparison of two sort keys equals the
lexicographic order of the tuples (day, hour, minute, second,
nanoseconds, sourceIndex, rowNumber), and two sort keys are equal exactly
when all tuple components are; the tagged lines of a whole bounded run
are pairwise distinct because `(sourceIndex, rowNumber)` is unique per
line; and for two single-line sources with no parseable timestamp
discovered in the order x.log, y.log, x.log's line precedes y.log's line
in the merged output. -/
theorem c2_sortkey_order :
    (∀ d1 h1 m1 s1 n1 i1 r1 d2 h2 m2 s2 n2 i2 r2 : Nat,
      d1 ≤ 1 → h1 < 24 → m1 < 60 → s1 < 60 → n1 < 10 ^ 9 → i1 < 10 ^ 4 → r1 < 10 ^ 8 →
      d2 ≤ 1 → h2 < 24 → m2 < 60 → s2 < 60 → n2 < 10 ^ 9 → i2 < 10 ^ 4 → r2 < 10 ^ 8 →
      (listLt (sortKey d1 h1 m1 s1 n1 i1 r1) (sortKey d2 h2 m2 s2 n2 i2 r2)
          = natLexLt [d1, h1, m1, s1, n1, i1, r1] [d2, h2, m2, s2, n2, i2, r2]) ∧
      (sortKey d1 h1 m1 s1 n1 i1 r1 = sortKey d2 h2 m2 s2 n2 i2 r2
          ↔ (d1 = d2 ∧ h1 = h2 ∧ m1 = m2 ∧ s1 = s2 ∧ n1 = n2 ∧ i1 = i2 ∧ r1 = r2))) ∧
    (∀ (pfx : List Char) (sources : List Source) (bs : List (List (List Char))),
      sources.length ≤ 10 ^ 4 →
      (∀ s ∈ sources, s.lines.length < 10 ^ 8) →
      runAll pfx 0 sources = Except.ok bs → bs.flatten.Nodup) ∧
    combine [] [⟨"x.log".toList, false, false, ["no stamp here".toList]⟩,
                ⟨"y.log".toList, false, false, ["still nothing".toList]⟩]
      = Except.ok
          [(mkTagged 0 0 0 0 0 0 1 ("x.log".toList) ("no stamp here".toList)).drop 35,
           (mkTagged 0 0 0 0 0 1 1 ("y.log".toList) ("still nothing".toList)).drop 35] := by
  refine ⟨?_, ?_, ?_⟩
  · intro d1 h1 m1 s1 n1 i1 r1 d2 h2 m2 s2 n2 i2 r2
    intro pd1 ph1 pm1 ps1 pn1 pi1 pr1 pd2 ph2 pm2 ps2 pn2 pi2 pr2
    exact ⟨sortKey_lt_eq (by omega) (by omega) (by omega) (by omega) pn1 pi1 pr1
        (by omega) (by omega) (by omega) (by omega) pn2 pi2 pr2,
      sortKey_eq_iff (by omega) (by omega) (by omega) (by omega) pn1 pi1 pr1
        (by omega) (by omega) (by omega) (by omega) pn2 pi2 pr2⟩
  · intro pfx sources bs hs hl h
    exact run_nodup hs hl h
  · decide

theorem c2_sortkey_order_witness :
    listLt (sortKey 0 1 2 3 4 5 6) (sortKey 1 0 0 0 0 0 0)
      = natLexLt [0, 1, 2, 3, 4, 5, 6] [1, 0, 0, 0, 0, 0, 0] :=
  (c2_sortkey_order.1 0 1 2 3 4 5 6 1 0 0 0 0 0 0
    (by decide) (by decide) (by decide) (by decide) (by decide) (by decide) (by decide)
    (by decide) (by decide) (by decide) (by decide) (by decide) (by decide) (by decide)).1

/-- C5: in a bounded run every produced sort key has the constant length
34, the final emission strips exactly the fixed 35-character prefix (the
key and its following space), and the merged output has exactly one line
per input line, each of the form displayTime, space, bracketed
width-62-aligned tag, space, unmodified original line text. -/
theorem c5_fixed_width_output :
    ∀ (pfx : List Char) (sources : List Source) (bs : List (List (List Char))),
      sources.length ≤ 10 ^ 4 →
      (∀ s ∈ sources, s.lines.length < 10 ^ 8) →
      runAll pfx 0 sources = Except.ok bs →
      (∀ (j : Nat) (hj : j < bs.length) (k : Nat) (hk : k < (bs.get ⟨j, hj⟩).length),
        ∃ day hh mm ss nn tag raw,
          day ≤ 1 ∧ hh < 24 ∧ mm < 60 ∧ ss < 60 ∧ nn < 10 ^ 9 ∧
          (bs.get ⟨j, hj⟩).get ⟨k, hk⟩ = mkTagged day hh mm ss nn j (k + 1) tag raw ∧
          (sortKey day hh mm ss nn j (k + 1)).length = 34 ∧
          ((bs.get ⟨j, hj⟩).get ⟨k, hk⟩).drop 35
            = displayTime hh mm ss nn ++ ' ' ::
                (padRight ('[' :: tag ++ [']']) 62 ++ ' ' :: raw)) ∧
      combine pfx sources = Except.ok (combineFrom bs) ∧
      (combineFrom bs).length = (sources.map (fun s => s.lines.length)).sum ∧
      (∀ o ∈ combineFrom bs, ∃ hh mm ss nn tag raw,
        hh < 24 ∧ mm < 60 ∧ ss < 60 ∧ nn < 10 ^ 9 ∧
        (∃ s ∈ sources, raw ∈ s.lines) ∧
        o = displayTime hh mm ss nn ++ ' ' ::
              (padRight ('[' :: tag ++ [']']) 62 ++ ' ' :: raw)) := by
  intro pfx sources bs hs hl h
  refine ⟨?_, combine_eq h, ?_, ?_⟩
  · intro j hj k hk
    obtain ⟨day, hh, mm, ss, nn, tag, raw, pd, ph, pm, ps, pn, _, _, _, he, hkey⟩ :=
      run_elem_shape hs hl h hj hk
    exact ⟨day, hh, mm, ss, nn, tag, raw, pd, ph, pm, ps, pn, he, hkey,
      by rw [he]; exact mkTagged_drop hkey⟩
  · have hmapeq : List.map List.length bs = sources.map (fun s => s.lines.length) := by
      obtain ⟨hbl, hspec⟩ := runAll_spec sources pfx 0 bs h
      apply List.ext_get
      · simp [hbl]
      · intro j hj1 hj2
        obtain ⟨hj3, hproc⟩ := hspec j (by simpa using hj1)
        have := (processSource_spec hproc).1
        simp only [List.get_map]
        rw [this]
    simp only [combineFrom, List.length_map, List.length_insertionSort,
      List.length_flatten, hmapeq]
  · intro o ho
    simp only [combineFrom, List.mem_map] at ho
    obtain ⟨x, hx, hxo⟩ := ho
    rw [List.mem_insertionSort] at hx
    rw [List.mem_flatten] at hx
    obtain ⟨b, hb, hxb⟩ := hx
    obtain ⟨⟨j, hj⟩, hbe⟩ := List.mem_iff_get.mp hb
    obtain ⟨⟨k, hk⟩, hxe⟩ := List.mem_iff_get.mp hxb
    subst hbe
    obtain ⟨day, hh, mm, ss, nn, tag, raw, pd, ph, pm, ps, pn, _, _, hraw, he, hkey⟩ :=
      run_elem_shape hs hl h hj hk
    refine ⟨hh, mm, ss, nn, tag, raw, ph, pm, ps, pn, hraw, ?_⟩
    rw [← hxo, ← hxe, he]
    exact mkTagged_drop hkey

theorem c5_fixed_width_output_witness :
    combine [] [⟨"w.log".toList, false, false, ["boot line".toList]⟩]
      = Except.ok (combineFrom [[mkTagged 0 0 0 0 0 0 1 ("w.log".toList) ("boot line".toList)]]) :=
  (c5_fixed_width_output [] [⟨"w.log".toList, false, false, ["boot line".toList]⟩]
    [[mkTagged 0 0 0 0 0 0 1 ("w.log".toList) ("boot line".toList)]]
    (by decide) (by decide) (by decide)).2.1

/-! ## Failure and success of whole runs -/

theorem processSource_fail {pfx : List Char} {i : Nat} {src : Source}
    (h : src.openFails = true ∨ src.scanFails = true) :
    ∀ b, processSource pfx i src ≠ Except.ok b := by
  intro b hok
  unfold processSource at hok
  rcases h with h | h
  · simp [h] at hok
  · by_cases ho : src.openFails
    · simp [ho] at hok
    · simp only [ho, Bool.false_eq_true, if_false] at hok
      split at hok
      · exact absurd hok (by simp)
      · simp [h] at hok

theorem runAll_fail :
    ∀ (sources : List Source) (pfx : List Char) (i : Nat),
      (∃ s ∈ sources, s.openFails = true ∨ s.scanFails = true) →
      ∀ bs, runAll pfx i sources ≠ Except.ok bs := by
  intro sources
  induction sources with
  | nil =>
    intro pfx i h bs
    obtain ⟨s, hs, _⟩ := h
    simp at hs
  | cons s ss ih =>
    intro pfx i h bs hok
    unfold runAll at hok
    obtain ⟨s2, hs2, hfail⟩ := h
    rcases List.mem_cons.mp hs2 with rfl | hmem
    · split at hok
      · exact absurd hok (by simp)
      case _ b heqb => exact processSource_fail hfail b heqb
    · split at hok
      · exact absurd hok (by simp)
      · split at hok
        case _ e heqe =>
          exact absurd hok (by simp)
        case _ bs2 heqbs =>
          exact ih pfx (i + 1) ⟨s2, hmem, hfail⟩ bs2 heqbs

theorem isOkE_exists {e a : Type} {x : Except e a} (h : isOkE x = true) :
    ∃ v, x = Except.ok v := by
  cases x with
  | ok v => exact ⟨v, rfl⟩
  | error _ => simp [isOkE] at h

theorem runLines_totalOk :
    ∀ (ls : List (List Char)) (i : Nat) (short : List Char) (st : WState),
      (∀ l ∈ ls, isOkE (parseLineTime l emptyTime) = true) →
      ∃ st', runLines i short st ls = Except.ok st' := by
  intro ls
  induction ls with
  | nil => intro i short st _; exact ⟨st, rfl⟩
  | cons l ls ih =>
    intro i short st hp
    have h1 : isOkE (parseLineTime l st.lineTime) = true := by
      rw [parseLineTime_isOk_indep l st.lineTime emptyTime]
      exact hp l (by simp)
    obtain ⟨t, ht⟩ := isOkE_exists h1
    have hst : stepLine i short st l = Except.ok
        ⟨t, if st.firstTime = emptyTime then t else st.firstTime,
         if t.hour + 1 < (if st.firstTime = emptyTime then t else st.firstTime).hour then 1
           else st.dayNumber,
         st.rowNumber + 1,
         st.tagged ++ [mkTagged
           (if t.hour + 1 < (if st.firstTime = emptyTime then t else st.firstTime).hour then 1
             else st.dayNumber)
           t.hour t.minute t.second t.nano i (st.rowNumber + 1) short l]⟩ := by
      unfold stepLine
      rw [ht]
    obtain ⟨st', hrun⟩ := ih i short _ (fun x hx => hp x (by simp [hx]))
    refine ⟨st', ?_⟩
    unfold runLines
    rw [hst]
    exact hrun

theorem processSource_totalOk {pfx : List Char} {i : Nat} {src : Source}
    (ho : src.openFails = false) (hsc : src.scanFails = false)
    (hp : ∀ l ∈ src.lines, isOkE (parseLineTime l emptyTime) = true) :
    ∃ b, processSource pfx i src = Except.ok b := by
  obtain ⟨st', hrun⟩ :=
    runLines_totalOk src.lines i (shortName (trimPref src.name pfx)) initWState hp
  refine ⟨st'.tagged, ?_⟩
  unfold processSource
  rw [ho]
  simp only [Bool.false_eq_true, if_false]
  rw [hrun, hsc]
  simp

theorem runAll_totalOk :
    ∀ (sources : List Source) (pfx : List Char) (i : Nat),
      (∀ s ∈ sources, s.openFails = false ∧ s.scanFails = false ∧
        ∀ l ∈ s.lines, isOkE (parseLineTime l emptyTime) = true) →
      ∃ bs, runAll pfx i sources = Except.ok bs := by
  intro sources
  induction sources with
  | nil => intro pfx i _; exact ⟨[], rfl⟩
  | cons s ss ih =>
    intro pfx i hp
    obtain ⟨ho, hsc, hl⟩ := hp s (by simp)
    obtain ⟨b, hb⟩ := @processSource_totalOk pfx i s ho hsc hl
    obtain ⟨bs, hbs⟩ := ih pfx (i + 1) (fun x hx => hp x (by simp [hx]))
    refine ⟨b :: bs, ?_⟩
    unfold runAll
    rw [hb, hbs]

/-- C8 is false as stated in its success half: a run whose sources all
open and scan successfully can still fail, when a line's matched
time text is out of range. -/
theorem c8_counterexample :
    (⟨"b.log".toList, false, false, ["77:88:99".toList]⟩ : Source).openFails = false ∧
    (⟨"b.log".toList, false, false, ["77:88:99".toList]⟩ : Source).scanFails = false ∧
    isOkE (combine [] [⟨"b.log".toList, false, false, ["77:88:99".toList]⟩]) = false := by
  decide

/-- C8 (amended): if opening or scanning any source fails the whole run
fails (no merged output is produced - the result carries no lines); and
when every source opens and scans cleanly and every line's time
extraction succeeds, the whole run succeeds with the merged output. -/
theorem c8_fail_fast :
    (∀ (pfx : List Char) (sources : List Source),
      (∃ s ∈ sources, s.openFails = true ∨ s.scanFails = true) →
      isOkE (combine pfx sources) = false) ∧
    (∀ (pfx : List Char) (sources : List Source),
      (∀ s ∈ sources, s.openFails = false ∧ s.scanFails = false ∧
        ∀ l ∈ s.lines, isOkE (parseLineTime l emptyTime) = true) →
      isOkE (combine pfx sources) = true) := by
  constructor
  · intro pfx sources h
    unfold combine
    split
    case _ e heq => rfl
    case _ bs heq => exact absurd heq (runAll_fail sources pfx 0 h bs)
  · intro pfx sources h
    obtain ⟨bs, hbs⟩ := runAll_totalOk sources pfx 0 h
    unfold combine
    rw [hbs]
    rfl

theorem c8_fail_fast_witness :
    isOkE (combine [] [⟨"c.log".toList, true, false, []⟩]) = false ∧
    isOkE (combine [] [⟨"d.log".toList, false, false, ["ok 10:00:00 line".toList]⟩]) = true :=
  ⟨c8_fail_fast.1 [] [⟨"c.log".toList, true, false, []⟩]
      ⟨⟨"c.log".toList, true, false, []⟩, by decide, Or.inl (by decide)⟩,
   c8_fail_fast.2 [] [⟨"d.log".toList, false, false, ["ok 10:00:00 line".toList]⟩]
      (by decide)⟩

/-- C9: the merged output is a deterministic function of the source list
and contents - collecting the per-source batches in any order (any
permutation of the batch list, as the unordered channel delivery may
produce) yields the identical sorted, stripped output. -/
theorem c9_deterministic_merge :
    ∀ (pfx : List Char) (sources : List Source) (bs arr1 arr2 : List (List (List Char))),
      runAll pfx 0 sources = Except.ok bs →
      arr1.Perm bs → arr2.Perm bs →
      combineFrom arr1 = combineFrom arr2 ∧
      combine pfx sources = Except.ok (combineFrom bs) := by
  intro pfx sources bs arr1 arr2 h h1 h2
  refine ⟨?_, combine_eq h⟩
  unfold combineFrom
  rw [insertionSort_perm_eq ((h1.trans h2.symm).flatten)]

theorem c9_deterministic_merge_witness :
    combineFrom [[mkTagged 0 0 0 0 0 1 1 ("y.log".toList) ("still nothing".toList)],
                 [mkTagged 0 0 0 0 0 0 1 ("x.log".toList) ("no stamp here".toList)]]
      = combineFrom [[mkTagged 0 0 0 0 0 0 1 ("x.log".toList) ("no stamp here".toList)],
                     [mkTagged 0 0 0 0 0 1 1 ("y.log".toList) ("still nothing".toList)]] :=
  (c9_deterministic_merge []
    [⟨"x.log".toList, false, false, ["no stamp here".toList]⟩,
     ⟨"y.log".toList, false, false, ["still nothing".toList]⟩]
    [[mkTagged 0 0 0 0 0 0 1 ("x.log".toList) ("no stamp here".toList)],
     [mkTagged 0 0 0 0 0 1 1 ("y.log".toList) ("still nothing".toList)]]
    [[mkTagged 0 0 0 0 0 1 1 ("y.log".toList) ("still nothing".toList)],
     [mkTagged 0 0 0 0 0 0 1 ("x.log".toList) ("no stamp here".toList)]]
    [[mkTagged 0 0 0 0 0 0 1 ("x.log".toList) ("no stamp here".toList)],
     [mkTagged 0 0 0 0 0 1 1 ("y.log".toList) ("still nothing".toList)]]
    (by decide) (by decide) (by decide)).1

theorem displayTime_length {h m s n : Nat}
    (hh : h < 100) (hm : m < 100) (hs : s < 100) (hn : n < 10 ^ 9) :
    (displayTime h m s n).length = 18 := by
  have hhp : h < 10 ^ 2 := by rw [ten_two]; exact hh
  have hmp : m < 10 ^ 2 := by rw [ten_two]; exact hm
  have hsp : s < 10 ^ 2 := by rw [ten_two]; exact hs
  simp only [displayTime, List.length_append, List.length_cons]
  rw [padNum_len hhp (by norm_num), padNum_len hmp (by norm_num),
    padNum_len hsp (by norm_num), padNum_len hn (by norm_num)]

/-- C10: the displayTime characters of a tagged line are exactly the
characters of its sort key that encode hour, minute, second and
nanoseconds (positions 2 through 19), so after the fixed 35-character
strip the time shown on every output line is the time it was sorted by. -/
theorem c10_display_matches_key :
    ∀ (day h m s n i r : Nat) (tag raw : List Char),
      day < 10 → h < 100 → m < 100 → s < 100 → n < 10 ^ 9 → i < 10 ^ 4 → r < 10 ^ 8 →
      ((sortKey day h m s n i r).drop 2).take 18 = displayTime h m s n ∧
      (mkTagged day h m s n i r tag raw).drop 35
        = displayTime h m s n ++ ' ' ::
            (padRight ('[' :: tag ++ [']']) 62 ++ ' ' :: raw) := by
  intro day h m s n i r tag raw hd hh hm hs hn hi hr
  constructor
  · simp only [sortKey, natToDigits_small hd, List.singleton_append, List.drop_succ_cons,
      List.drop_zero]
    have hX : padNum 2 h ++ ':' :: (padNum 2 m ++ ':' :: (padNum 2 s ++ '.' ::
        (padNum 9 n ++ ':' :: (padNum 4 i ++ ':' :: padNum 8 r))))
        = displayTime h m s n ++ ':' :: (padNum 4 i ++ ':' :: padNum 8 r) := by
      simp [displayTime]
    rw [hX, List.take_left' (displayTime_length hh hm hs hn)]
  · exact mkTagged_drop (sortKey_length hd hh hm hs hn hi hr)

theorem c10_display_matches_key_witness :
    ((sortKey 0 1 2 3 4 5 6).drop 2).take 18 = displayTime 1 2 3 4 :=
  (c10_display_matches_key 0 1 2 3 4 5 6 [] []
    (by decide) (by decide) (by decide) (by decide) (by decide) (by decide) (by decide)).1
